import Mathlib

set_option maxHeartbeats 1000000

/-!
Shallow embedding of the review collector's storage engine
(`src/collector/storage.py`: `StorageManager.save_reviews` and
`StorageManager.update_index`) together with the record construction of the
iOS XML fetcher (`src/collector/fetcher.py`: `fetch_ios_reviews_xml`).

Modelling conventions:
* Python `datetime` objects are modelled by `DT` (year, month, day, hour,
  minute, second, microsecond).  Every datetime this system manipulates is
  timezone-aware UTC: both fetchers normalize with
  `astimezone(datetime.timezone.utc)` / `replace(tzinfo=utc)`.  Python
  guarantees `1 <= year <= 9999` and `1 <= month <= 12` for any constructed
  `datetime`; hypotheses named `wf...` record (a weakening of) this.
* `json.dump(..., default=str)` serializes a datetime as `str(dt)`, and
  `_read_json` yields it back as that string.  On aware UTC datetimes `str`
  is injective and order-preserving (fixed-width zero-padded fields, constant
  "+00:00" suffix; a ".ffffff" block compares after the bare second because
  chr '.' > chr '+'), and `datetime.fromisoformat (str dt) = dt`.  A stored
  date string is therefore modelled as `DateVal.str d` carrying the datetime
  `d` it denotes, while an in-memory datetime object is `DateVal.dt d`.
* Python dicts preserve insertion order; they are modelled as association
  lists with first-match lookup (`lookupA`) and replace-first-or-append-last
  update (`updA`).  A Python `set` collected by iteration is modelled as a
  first-occurrence deduplicated list.
* `list.sort(key=lambda x: x['date'], reverse=True)` is Python's stable sort.
  Comparing a `datetime` with a `str` raises `TypeError`; a sort of a list
  containing at least one element of each kind necessarily performs one such
  comparison (any correct comparison sort must compare the two groups at
  least once, directly or through a middle element of one of the kinds),
  while a homogeneous list sorts without error.  `pySortRev` returns `none`
  exactly on mixed lists and otherwise the stable descending sort.
* Exceptions escaping `save_reviews` (it contains no try/except) are modelled
  by the `Bool` component of `save_reviewsRun`: `false` means the run aborted
  with an exception; state mutations performed before the raise are kept.
-/

/-- Python `datetime` fields (UTC). -/
structure DT where
  y : Nat
  mo : Nat
  d : Nat
  h : Nat
  mi : Nat
  s : Nat
  us : Nat
deriving DecidableEq, Repr

/-- Linear key for a datetime.  The radices bound each in-range field
(month <= 12 < 16, day <= 31 < 32, hour < 24 <= 32, minute/second < 60 <= 64,
microsecond < 10^6 <= 2^20), so on the values Python can construct this order
coincides with Python's field-lexicographic `datetime` comparison. -/
def DT.key (t : DT) : Nat :=
  (((((t.y * 16 + t.mo) * 32 + t.d) * 32 + t.h) * 64 + t.mi) * 64 + t.s) * 1048576 + t.us

/-- A review's `date` value as Python sees it: a live `datetime` object
(`dt`, as produced by the fetchers) or the ISO string read from a stored JSON
document (`str`, modelled by the datetime it denotes, see the header). -/
inductive DateVal where
  | dt : DT → DateVal
  | str : DT → DateVal
deriving DecidableEq, Repr

def DateVal.toDT : DateVal → DT
  | .dt t => t
  | .str t => t

def DateVal.key (v : DateVal) : Nat := v.toDT.key

/-- True when the value is a live datetime object (not a string). -/
def DateVal.isObj : DateVal → Bool
  | .dt _ => true
  | .str _ => false

/-- One review record, with the fields the fetchers emit
(`source, id, user_name, date, rating, title, content, version, country`). -/
structure Review where
  source : String
  id : String
  user_name : String
  date : DateVal
  rating : Int
  title : String
  content : String
  version : Option String
  country : String
deriving DecidableEq, Repr

/-- The ids of a list of reviews (`{r['id'] for r in existing_reviews}`). -/
def ids (l : List Review) : List String := l.map (·.id)

/-- storage.py lines 77-80: walk the newly fetched records in order, appending
a record and marking its id seen only if the id is not already seen. -/
def mergeNew (seen : List String) : List Review → List Review
  | [] => []
  | r :: rs => if r.id ∈ seen then mergeNew seen rs else r :: mergeNew (r.id :: seen) rs

/-- storage.py lines 74-80: `merged = existing_reviews` then the append loop. -/
def mergeDedup (existing new : List Review) : List Review :=
  existing ++ mergeNew (ids existing) new

/-- Stable insertion for the descending sort: a record is placed before the
first strictly older record; among equal dates the earlier (already inserted
later elements come from further right) element stays first. -/
def insD (r : Review) : List Review → List Review
  | [] => [r]
  | x :: xs => if x.date.key ≤ r.date.key then r :: x :: xs else x :: insD r xs

/-- Stable sort by date descending (the effect of
`merged.sort(key=lambda x: x['date'], reverse=True)` on a homogeneous list). -/
def sortD : List Review → List Review
  | [] => []
  | r :: rs => insD r (sortD rs)

/-- storage.py lines 82-83.  Returns `none` when the sort raises `TypeError`,
which happens exactly when the list mixes datetime objects with date strings
(see the header). -/
def pySortRev (l : List Review) : Option (List Review) :=
  if (l.any fun r => r.date.isObj) && (l.any fun r => !r.date.isObj) then none
  else some (sortD l)

/-- Decimal digit character. -/
def digitChar (n : Nat) : Char := Char.ofNat (48 + n)

/-- Decimal digits of `n`, most significant first; structural fuel version so
that it reduces in the kernel (`natDigs n` supplies fuel `n`, always enough
since the digit count of `n` is at most `n + 1`). -/
def natDigsAux : Nat → Nat → List Char
  | 0, n => [digitChar (n % 10)]
  | f + 1, n => if n < 10 then [digitChar n] else natDigsAux f (n / 10) ++ [digitChar (n % 10)]

def natDigs (n : Nat) : List Char := natDigsAux n n

/-- `strftime` zero padding to width `k` (`%Y` uses 4, `%m` uses 2). -/
def padN (k n : Nat) : String := ⟨List.replicate (k - (natDigs n).length) '0' ++ natDigs n⟩

/-- The `'%Y/%m'` partition key string of a year and month. -/
def ymS (y mo : Nat) : String := padN 4 y ++ "/" ++ padN 2 mo

/-- `dt.strftime('%Y/%m')` for a datetime. -/
def ymOfD (t : DT) : String := ymS t.y t.mo

/-- storage.py lines 55-59: the date used for grouping; a string date is first
parsed back with `fromisoformat`, which on a stored `str(dt)` returns `dt`. -/
def keyOf (r : Review) : String × String := (r.country, ymOfD r.date.toDT)

/-- First-match lookup in an association list (Python dict lookup). -/
def lookupA {α : Type} : List (String × α) → String → Option α
  | [], _ => none
  | (k, v) :: m, q => if k = q then some v else lookupA m q

/-- Python dict assignment: replace the first binding of the key, or append a
new binding at the end (insertion order). -/
def updA {α : Type} : List (String × α) → String → α → List (String × α)
  | [], k, v => [(k, v)]
  | (k', v') :: m, k, v => if k' = k then (k, v) :: m else (k', v') :: updA m k v

/-- The `versions` value of the index: version -> country -> list of "YYYY/MM". -/
abbrev CMap := List (String × List String)
abbrev VMap := List (String × CMap)

/-- The `index.json` document. -/
structure IndexDoc where
  updated_at : String
  versions : VMap
deriving DecidableEq, Repr

/-- The whole store: partition documents keyed by path, plus the index
document (`none` when `index.json` does not exist yet). -/
structure Store where
  parts : List (String × List Review)
  index : Option IndexDoc
deriving DecidableEq, Repr

def emptyStore : Store := ⟨[], none⟩

/-- Lexicographic-by-code-point strict comparison of char lists (Python `<`
on strings). -/
def lexLtCh : List Char → List Char → Bool
  | [], [] => false
  | [], _ :: _ => true
  | _ :: _, [] => false
  | a :: as, b :: bs => if a < b then true else if b < a then false else lexLtCh as bs

def strLtB (a b : String) : Bool := lexLtCh a.data b.data

/-- Ascending insertion by Python string order. -/
def insS (x : String) : List String → List String
  | [] => [x]
  | y :: ys => if strLtB x y then x :: y :: ys else y :: insS x ys

/-- `list.sort()` on a list of strings. -/
def sortS : List String → List String
  | [] => []
  | x :: xs => insS x (sortS xs)

/-- storage.py lines 141-145: add this ym if not present, then keep sorted. -/
def addYmTo (l : List String) (ym : String) : List String :=
  if ym ∈ l then l else sortS (l ++ [ym])

/-- storage.py lines 134-145: ensure the version key, ensure the country key,
then insert the partition's year-month. -/
def addVer (vm : VMap) (v c ym : String) : VMap :=
  let cm := (lookupA vm v).getD []
  updA vm v (updA cm c (addYmTo ((lookupA cm c).getD []) ym))

/-- storage.py lines 128-131: `r.get('version')`, with falsy (missing or
empty) values replaced by "Unknown". -/
def effVersion (r : Review) : String :=
  match r.version with
  | none => "Unknown"
  | some v => if v = "" then "Unknown" else v

/-- First-occurrence deduplication (deterministic model of collecting a
Python `set` and iterating it). -/
def dedupS (seen : List String) : List String → List String
  | [] => []
  | x :: xs => if x ∈ seen then dedupS seen xs else x :: dedupS (x :: seen) xs

/-- storage.py lines 126-131: the distinct versions present in a file. -/
def versionsInFile (l : List Review) : List String := dedupS [] (l.map effVersion)

/-- One entry of `affected_files` (storage.py lines 86-91). -/
structure AffInfo where
  path : String
  country : String
  ym : String
  reviews : List Review
deriving DecidableEq, Repr

/-- storage.py lines 118-145 for one affected file. -/
def applyInfo (vm : VMap) (i : AffInfo) : VMap :=
  (versionsInFile i.reviews).foldl (fun m v => addVer m v i.country i.ym) vm

/-- storage.py lines 118-145 over all affected files. -/
def updIdx (infos : List AffInfo) (vm : VMap) : VMap :=
  infos.foldl applyInfo vm

/-- The loaded index document, with the default used at line 102 when
`index.json` is absent. -/
def indexD (st : Store) : IndexDoc := st.index.getD ⟨"", []⟩

/-- `StorageManager.update_index` (storage.py lines 96-148): load the current
index, fold in every affected file, restamp `updated_at`, write back. -/
def update_index (st : Store) (infos : List AffInfo) (now : String) : Store :=
  { st with index := some ⟨now, updIdx infos (indexD st).versions⟩ }

/-- Membership of a `(version, country, ym)` triple in a versions map
(an absent `version` or `country` key yields the empty list, hence `false`). -/
def hasTriple (vm : VMap) (v c ym : String) : Bool :=
  decide (ym ∈ (lookupA ((lookupA vm v).getD []) c).getD [])

def hasTripleI (oi : Option IndexDoc) (v c ym : String) : Bool :=
  match oi with
  | none => false
  | some idx => hasTriple idx.versions v c ym

/-- Serialization of a date value by `json.dump(..., default=str)`:
a datetime object becomes its string; a string stays itself. -/
def serDate : DateVal → DateVal
  | .dt t => .str t
  | .str t => .str t

/-- JSON round-trip of one review record: only the date changes
representation, every other field survives unchanged. -/
def serialize (r : Review) : Review := { r with date := serDate r.date }

/-- Insert one review into the grouping accumulator under key `k`
(storage.py lines 63-65): append to the existing group, or append a new
group at the end. -/
def insG (acc : List ((String × String) × List Review)) (k : String × String) (r : Review) :
    List ((String × String) × List Review) :=
  match acc with
  | [] => [(k, [r])]
  | (k', l) :: rest => if k' = k then (k', l ++ [r]) :: rest else (k', l) :: insG rest k r

def groupAux : List Review → List ((String × String) × List Review) →
    List ((String × String) × List Review)
  | [], acc => acc
  | r :: rs, acc => groupAux rs (insG acc (keyOf r) r)

/-- storage.py lines 52-65: group the batch by `(country, '%Y/%m')`, in
first-occurrence order (dict insertion order). -/
def groupReviews (rs : List Review) : List ((String × String) × List Review) := groupAux rs []

/-- storage.py line 71: `f"{base_path}/{country}/{ym}.json"` (with `ym` of the
form "YYYY/MM" this is the `{base}/{country}/{YYYY}/{MM}.json` layout). -/
def partPath (base c s : String) : String := base ++ "/" ++ c ++ "/" ++ s ++ ".json"

/-- storage.py lines 70-91: process the groups in dict order; for each, read
the existing partition (`or []`), merge, sort, write, and record the affected
file.  A `TypeError` from the sort aborts the whole loop (there is no
try/except): the triple's `Bool` is `false` and the infos collected so far
are discarded with the exception. -/
def processGroups (base : String) :
    Store → List ((String × String) × List Review) → Store × List AffInfo × Bool
  | st, [] => (st, [], true)
  | st, ((c, s), grp) :: rest =>
    let path := partPath base c s
    let existing := (lookupA st.parts path).getD []
    match pySortRev (mergeDedup existing grp) with
    | none => (st, [], false)
    | some out =>
      let st1 : Store := { st with parts := updA st.parts path (out.map serialize) }
      let res := processGroups base st1 rest
      (res.1, ⟨path, c, s, out⟩ :: res.2.1, res.2.2)

/-- `StorageManager.save_reviews` (storage.py lines 47-94).  The `Bool` is
`false` when an exception escaped: partitions written before the raise are
kept and `update_index` never runs. -/
def save_reviewsRun (st : Store) (reviews : List Review) (base now : String) : Store × Bool :=
  match processGroups base st (groupReviews reviews) with
  | (st', infos, true) => (update_index st' infos now, true)
  | (st', _, false) => (st', false)

/-- Well-formed fetched record: its date is a live datetime object (both
fetchers always construct one) whose year and month respect (a weakening of)
Python's `datetime` bounds `1 <= year <= 9999`, `1 <= month <= 12`. -/
def wfRecB (r : Review) : Bool :=
  match r.date with
  | .dt t => decide (t.y < 10000) && decide (t.mo < 100)
  | .str _ => false

def wfBatchB (rs : List Review) : Bool := rs.all wfRecB

/-- Store states reachable from an empty store by ingestion runs of this
system (every batch comes from the fetchers, hence is well formed; aborted
runs leave their partial writes behind and are reachable too). -/
inductive Reach (base : String) : Store → Prop where
  | empty : Reach base emptyStore
  | step (st : Store) (batch : List Review) (now : String) :
      Reach base st → wfBatchB batch = true →
      Reach base (save_reviewsRun st batch base now).1

/-- Every partition binding sits at a well-shaped partition path and all its
records carry that partition's country. -/
def PartsShape (base : String) (parts : List (String × List Review)) : Prop :=
  ∀ p doc, (p, doc) ∈ parts →
    ∃ c y mo, y < 10000 ∧ mo < 100 ∧ p = partPath base c (ymS y mo) ∧
      ∀ r ∈ doc, r.country = c

/-- One partition map extends another for the index's purposes: every stored
document keeps, for each of its records, a record with the same effective
version and the same country. -/
def Grows (a b : List (String × List Review)) : Prop :=
  ∀ p doc, lookupA a p = some doc → ∃ doc', lookupA b p = some doc' ∧
    ∀ r ∈ doc, ∃ r' ∈ doc', effVersion r' = effVersion r ∧ r'.country = r.country

/-- Store invariant: well-shaped partitions, and every index triple backed by
a record of that (effective) version and country in the named partition. -/
structure SInv (base : String) (st : Store) : Prop where
  parts_shape : PartsShape base st.parts
  sound : ∀ v c ym, hasTripleI st.index v c ym = true →
    (∃ y mo, y < 10000 ∧ mo < 100 ∧ ym = ymS y mo) ∧
    ∃ doc, lookupA st.parts (partPath base c ym) = some doc ∧
      ∃ r, r ∈ doc ∧ effVersion r = v ∧ r.country = c

/-! Date parsing and the iOS XML fetcher (fetcher.py lines 76-142).

`datetime.fromisoformat` is modelled for the CPython <= 3.10 grammar:
`YYYY-MM-DD[<any sep>HH[:MM[:SS[.fff|.ffffff]]][(+|-)HH:MM[:SS]]]`, with the
range checks the `datetime`/`timezone` constructors perform.  `astimezone`
to UTC is the usual proleptic-Gregorian epoch arithmetic. -/

/-- Read exactly two decimal digit characters. -/
def read2 : List Char → Option (Nat × List Char)
  | a :: b :: rest =>
    if a.isDigit && b.isDigit then some ((a.toNat - 48) * 10 + (b.toNat - 48), rest) else none
  | _ => none

/-- Read exactly four decimal digit characters. -/
def read4 : List Char → Option (Nat × List Char)
  | a :: b :: c :: d :: rest =>
    if a.isDigit && b.isDigit && c.isDigit && d.isDigit then
      some ((((a.toNat - 48) * 10 + (b.toNat - 48)) * 10 + (c.toNat - 48)) * 10 + (d.toNat - 48),
        rest)
    else none
  | _ => none

def expectCh (c : Char) : List Char → Option (List Char)
  | x :: rest => if x = c then some rest else none
  | [] => none

def isLeap (y : Nat) : Bool := y % 4 == 0 && (y % 100 != 0 || y % 400 == 0)

def daysInMonth (y mo : Nat) : Nat :=
  if mo = 2 then (if isLeap y then 29 else 28)
  else if mo = 4 ∨ mo = 6 ∨ mo = 9 ∨ mo = 11 then 30
  else 31

/-- Value in microseconds of a fraction digit run (exactly 3 or 6 digits). -/
def fracVal (ds : List Char) : Option Nat :=
  let v := ds.foldl (fun a c => a * 10 + (c.toNat - 48)) 0
  if ds.length = 3 then some (v * 1000) else if ds.length = 6 then some v else none

/-- Parse `HH[:MM[:SS[.frac]]]`, returning `(h, mi, s, us, rest)`. -/
def parseHMS (cs : List Char) : Option (Nat × Nat × Nat × Nat × List Char) := do
  let (h, r1) ← read2 cs
  match r1 with
  | ':' :: r2 => do
    let (mi, r3) ← read2 r2
    match r3 with
    | ':' :: r4 => do
      let (s, r5) ← read2 r4
      match r5 with
      | '.' :: r6 =>
        let ds := r6.takeWhile (·.isDigit)
        match fracVal ds with
        | some us => some (h, mi, s, us, r6.dropWhile (·.isDigit))
        | none => none
      | _ => some (h, mi, s, 0, r5)
    | _ => some (h, mi, 0, 0, r3)
  | _ => some (h, 0, 0, 0, r1)

/-- Parse a trailing UTC offset `(+|-)HH:MM[:SS]`; `none` offset on empty. -/
def parseOff : List Char → Option (Option Int)
  | [] => some (some 0) >>= fun _ => some none
  | c :: rest =>
    if c = '+' ∨ c = '-' then
      match read2 rest with
      | none => none
      | some (oh, r1) =>
        match expectCh ':' r1 with
        | none => none
        | some r2 =>
          match read2 r2 with
          | none => none
          | some (om, r3) =>
            let cont : Nat × List Char → Option (Option Int) := fun (os, r4) =>
              if r4 = [] then
                let tot : Int := (oh * 3600 + om * 60 + os : Nat)
                if tot < 86400 then some (some (if c = '-' then -tot else tot)) else none
              else none
            match r3 with
            | ':' :: r4 =>
              match read2 r4 with
              | none => none
              | some p => cont p
            | _ => cont (0, r3)
    else none

/-- Parsed but not yet timezone-converted datetime: naive fields plus the
optional offset in seconds. -/
structure PDT where
  y : Nat
  mo : Nat
  d : Nat
  h : Nat
  mi : Nat
  s : Nat
  us : Nat
  offSec : Option Int
deriving DecidableEq, Repr

/-- `datetime.fromisoformat`, with the constructor's range validation. -/
def parseIsoRaw (str : String) : Option PDT := do
  let cs := str.data
  let (y, r1) ← read4 cs
  let r2 ← expectCh '-' r1
  let (mo, r3) ← read2 r2
  let r4 ← expectCh '-' r3
  let (d, r5) ← read2 r4
  if 1 ≤ y ∧ 1 ≤ mo ∧ mo ≤ 12 ∧ 1 ≤ d ∧ d ≤ daysInMonth y mo then
    match r5 with
    | [] => some ⟨y, mo, d, 0, 0, 0, 0, none⟩
    | _sep :: r6 => do
      let (h, mi, s, us, r7) ← parseHMS r6
      if h ≤ 23 ∧ mi ≤ 59 ∧ s ≤ 59 then
        let off ← parseOff r7
        some ⟨y, mo, d, h, mi, s, us, off⟩
      else none
  else none

/-- Days since 1970-01-01 of a civil date (proleptic Gregorian). -/
def daysFromCivil (y mo d : Int) : Int :=
  let y1 : Int := if mo ≤ 2 then y - 1 else y
  let era : Int := Int.tdiv (if 0 ≤ y1 then y1 else y1 - 399) 400
  let yoe : Int := y1 - era * 400
  let mp : Int := if 2 < mo then mo - 3 else mo + 9
  let doy : Int := Int.tdiv (153 * mp + 2) 5 + d - 1
  let doe : Int := yoe * 365 + Int.tdiv yoe 4 - Int.tdiv yoe 100 + doy
  era * 146097 + doe - 719468

/-- Civil date of a count of days since 1970-01-01. -/
def civilFromDays (z0 : Int) : Int × Int × Int :=
  let z := z0 + 719468
  let era : Int := Int.tdiv (if 0 ≤ z then z else z - 146096) 146097
  let doe : Int := z - era * 146097
  let yoe : Int := Int.tdiv (doe - Int.tdiv doe 1460 + Int.tdiv doe 36524 - Int.tdiv doe 146096) 365
  let y : Int := yoe + era * 400
  let doy : Int := doe - (365 * yoe + Int.tdiv yoe 4 - Int.tdiv yoe 100)
  let mp : Int := Int.tdiv (5 * doy + 2) 153
  let d : Int := doy - Int.tdiv (153 * mp + 2) 5 + 1
  let m : Int := if mp < 10 then mp + 3 else mp - 9
  (if m ≤ 2 then y + 1 else y, m, d)

def toEpochSecs (y mo d h mi s : Nat) (offSec : Int) : Int :=
  daysFromCivil y mo d * 86400 + (h * 3600 + mi * 60 + s : Nat) - offSec

def ofEpochSecs (t : Int) (us : Nat) : DT :=
  let z : Int := Int.fdiv t 86400
  let rem : Int := t - z * 86400
  let c := civilFromDays z
  ⟨c.1.toNat, c.2.1.toNat, c.2.2.toNat,
   (Int.tdiv rem 3600).toNat, (Int.tdiv (Int.emod rem 3600) 60).toNat, (Int.emod rem 60).toNat, us⟩

/-- fetcher.py lines 112-119: `fromisoformat` then normalization to UTC
(`replace(tzinfo=utc)` for a naive result, `astimezone(utc)` otherwise). -/
def parseIsoUTC (str : String) : Option DT := do
  let p ← parseIsoRaw str
  match p.offSec with
  | none => some ⟨p.y, p.mo, p.d, p.h, p.mi, p.s, p.us⟩
  | some off => some (ofEpochSecs (toEpochSecs p.y p.mo p.d p.h p.mi p.s off) p.us)

/-- One `<entry>` of the RSS XML feed, as the fetcher reads it: whether an
`im:rating` tag is present, and the text of the tags it extracts (`updated`
is `none` when the `<updated>` tag is missing, which makes `.text` raise). -/
structure XmlEntry where
  hasRating : Bool
  rid : String
  updated : Option String
  author : String
  etitle : String
  econtent : String
  rating : Int
  version : Option String
deriving DecidableEq, Repr

/-- fetcher.py lines 103-133: build the review dict for one entry.  A date
string that fails to parse falls back to `datetime.now(timezone.utc)`
(line 121, `# Fallback`). -/
def entryToReview (c : String) (now : DT) (e : XmlEntry) : Review :=
  let d : DT := match e.updated with
    | some s => (parseIsoUTC s).getD now
    | none => now
  ⟨"ios", e.rid, e.author, .dt d, e.rating, e.etitle, e.econtent, e.version, c⟩

/-- fetcher.py lines 97-136: process entries in order, skipping non-reviews,
stopping once `count` records are collected.  A missing `<updated>` tag makes
line 104 raise `AttributeError`, which the outer handler turns into an empty
result (`none` here, collapsed to `[]` by `fetchIosXml`). -/
def fetchGo (c : String) (now : DT) (cnt : Nat) :
    List XmlEntry → List Review → Option (List Review)
  | [], acc => some acc
  | e :: es, acc =>
    if e.hasRating = false then fetchGo c now cnt es acc
    else match e.updated with
      | none => none
      | some _ =>
        let acc1 := acc ++ [entryToReview c now e]
        if cnt ≤ acc1.length then some acc1 else fetchGo c now cnt es acc1

/-- `fetch_ios_reviews_xml` restricted to its record construction: the list
of review dicts produced from the feed's entries. -/
def fetchIosXml (entries : List XmlEntry) (c : String) (cnt : Nat) (now : DT) : List Review :=
  (fetchGo c now cnt entries []).getD []

/-! Basic lemmas about the merge and the sort. -/

theorem mem_mergeNew {seen : List String} {l : List Review} {r : Review}
    (h : r ∈ mergeNew seen l) : r ∈ l ∧ r.id ∉ seen := by
  induction l generalizing seen with
  | nil => simp [mergeNew] at h
  | cons x xs ih =>
    rw [mergeNew] at h
    split at h
    · have := ih h
      exact ⟨List.mem_cons_of_mem _ this.1, this.2⟩
    · rcases List.mem_cons.mp h with h | h
      · subst h
        exact ⟨List.mem_cons_self _ _, by assumption⟩
      · have := ih h
        refine ⟨List.mem_cons_of_mem _ this.1, fun hc => this.2 ?_⟩
        exact List.mem_cons_of_mem _ hc

theorem mem_ids {l : List Review} {r : Review} (h : r ∈ l) : r.id ∈ ids l := by
  simp only [ids, List.mem_map]
  exact ⟨r, h, rfl⟩

theorem mem_insD {r x : Review} {l : List Review} : x ∈ insD r l ↔ x = r ∨ x ∈ l := by
  induction l with
  | nil => simp [insD]
  | cons a as ih =>
    simp only [insD]
    by_cases h : a.date.key ≤ r.date.key
    · simp [h, List.mem_cons]
    · simp only [h, if_neg, not_false_iff, List.mem_cons, ih]
      tauto

theorem mem_sortD {l : List Review} {x : Review} : x ∈ sortD l ↔ x ∈ l := by
  induction l with
  | nil => simp [sortD]
  | cons a as ih => simp [sortD, mem_insD, ih]

/-- Claim C2.  For any existing record and any newly fetched record carrying
the same id but different field values, the merge keeps the existing record
untouched and drops the fetched duplicate, both in the raw merged list
(storage.py lines 74-80) and in the sorted list that gets written. -/
theorem C2_dedup_first_seen_wins (existing new : List Review) (rOld rNew : Review)
    (hold : rOld ∈ existing) (hnew : rNew ∈ new) (hid : rNew.id = rOld.id)
    (hne : rNew ∉ existing) :
    rOld ∈ mergeDedup existing new ∧ rNew ∉ mergeDedup existing new ∧
    ∀ out, pySortRev (mergeDedup existing new) = some out → rOld ∈ out ∧ rNew ∉ out := by
  have h1 : rOld ∈ mergeDedup existing new := List.mem_append_left _ hold
  have h2 : rNew ∉ mergeDedup existing new := by
    intro hc
    rcases List.mem_append.mp hc with hc | hc
    · exact hne hc
    · have := (mem_mergeNew hc).2
      exact this (hid ▸ mem_ids hold)
  refine ⟨h1, h2, fun out hout => ?_⟩
  have : out = sortD (mergeDedup existing new) := by
    unfold pySortRev at hout
    split at hout
    · exact absurd hout (by simp)
    · exact (Option.some.inj hout).symm
  subst this
  exact ⟨mem_sortD.mpr h1, fun hc => h2 (mem_sortD.mp hc)⟩

/-- Witness for C2 at a concrete input. -/
theorem C2_dedup_first_seen_wins_w :
    let rOld : Review := ⟨"ios", "a", "u", .str ⟨2024, 5, 1, 0, 0, 0, 0⟩, 5, "t", "c",
      some "1.0", "jp"⟩
    let rNew : Review := ⟨"ios", "a", "u2", .dt ⟨2024, 5, 1, 0, 0, 0, 0⟩, 1, "t2", "c2",
      some "2.0", "jp"⟩
    rOld ∈ mergeDedup [rOld] [rNew] ∧ rNew ∉ mergeDedup [rOld] [rNew] ∧
    ∀ out, pySortRev (mergeDedup [rOld] [rNew]) = some out → rOld ∈ out ∧ rNew ∉ out := by
  intro rOld rNew
  exact C2_dedup_first_seen_wins [rOld] [rNew] rOld rNew (by decide) (by decide) (by decide)
    (by decide)

/-! Sortedness and stability of the descending sort. -/

theorem pairwise_insD {r : Review} {l : List Review}
    (h : l.Pairwise fun a b => b.date.key ≤ a.date.key) :
    (insD r l).Pairwise fun a b => b.date.key ≤ a.date.key := by
  induction l with
  | nil => simp [insD]
  | cons a as ih =>
    rcases List.pairwise_cons.mp h with ⟨ha, htail⟩
    simp only [insD]
    by_cases hc : a.date.key ≤ r.date.key
    · simp only [hc, if_pos]
      refine List.pairwise_cons.mpr ⟨?_, h⟩
      intro b hb
      rcases List.mem_cons.mp hb with hb | hb
      · exact hb ▸ hc
      · exact le_trans (ha b hb) hc
    · simp only [hc, if_neg, not_false_iff]
      refine List.pairwise_cons.mpr ⟨?_, ih htail⟩
      intro b hb
      rcases mem_insD.mp hb with hb | hb
      · exact hb ▸ le_of_not_le hc
      · exact ha b hb

theorem pairwise_sortD (l : List Review) :
    (sortD l).Pairwise fun a b => b.date.key ≤ a.date.key := by
  induction l with
  | nil => simp [sortD]
  | cons a as ih => exact pairwise_insD ih

theorem filter_insD (r : Review) (l : List Review) (k : Nat) :
    (insD r l).filter (fun x => decide (x.date.key = k)) =
      (if r.date.key = k then [r] else []) ++ l.filter (fun x => decide (x.date.key = k)) := by
  induction l with
  | nil =>
    by_cases h : r.date.key = k <;> simp [insD, List.filter_cons, h]
  | cons a as ih =>
    simp only [insD]
    by_cases hc : a.date.key ≤ r.date.key
    · rw [if_pos hc]
      by_cases h : r.date.key = k <;> simp [List.filter_cons, h]
    · rw [if_neg hc]
      have hstep : (a :: insD r as).filter (fun x => decide (x.date.key = k)) =
          (if a.date.key = k then [a] else []) ++
            (insD r as).filter (fun x => decide (x.date.key = k)) := by
        by_cases h2 : a.date.key = k <;> simp [List.filter_cons, h2]
      rw [hstep, ih]
      by_cases h2 : a.date.key = k
      · have hr : ¬ r.date.key = k := fun h1 => hc (le_of_eq (h2.trans h1.symm))
        simp [h2, hr, List.filter_cons]
      · simp [h2, List.filter_cons]

theorem filter_sortD (l : List Review) (k : Nat) :
    (sortD l).filter (fun x => decide (x.date.key = k)) =
      l.filter (fun x => decide (x.date.key = k)) := by
  induction l with
  | nil => rfl
  | cons a as ih =>
    simp only [sortD]
    rw [filter_insD, ih]
    by_cases h : a.date.key = k <;> simp [List.filter_cons, h]

/-- Claim C3.  Whenever the merge's sort completes (so a partition is
written), the written sequence is ordered by date non-increasing, and records
of equal date keep their relative order from the merged sequence (stability,
stated as equality of the per-date subsequences); the output is a pure
function of the input, hence deterministic across repeated runs. -/
theorem C3_sorted_stable (existing new out : List Review)
    (h : pySortRev (mergeDedup existing new) = some out) :
    out.Pairwise (fun a b => b.date.key ≤ a.date.key) ∧
    ∀ k, out.filter (fun r => decide (r.date.key = k)) =
      (mergeDedup existing new).filter (fun r => decide (r.date.key = k)) := by
  have : out = sortD (mergeDedup existing new) := by
    unfold pySortRev at h
    split at h
    · exact absurd h (by simp)
    · exact (Option.some.inj h).symm
  subst this
  exact ⟨pairwise_sortD _, fun k => filter_sortD _ k⟩

/-- Witness for C3 at a concrete input (two equal dates exercise stability). -/
theorem C3_sorted_stable_w :
    let r1 : Review := ⟨"ios", "a", "u", .dt ⟨2024, 5, 1, 0, 0, 0, 0⟩, 5, "", "", some "1.0", "jp"⟩
    let r2 : Review := ⟨"ios", "b", "u", .dt ⟨2024, 5, 2, 0, 0, 0, 0⟩, 4, "", "", some "1.0", "jp"⟩
    let r3 : Review := ⟨"ios", "c", "u", .dt ⟨2024, 5, 1, 0, 0, 0, 0⟩, 3, "", "", some "1.1", "jp"⟩
    ∃ out, pySortRev (mergeDedup [] [r1, r2, r3]) = some out ∧
      (out.Pairwise (fun a b => b.date.key ≤ a.date.key) ∧
       ∀ k, out.filter (fun r => decide (r.date.key = k)) =
         (mergeDedup [] [r1, r2, r3]).filter (fun r => decide (r.date.key = k))) := by
  intro r1 r2 r3
  exact ⟨sortD (mergeDedup [] [r1, r2, r3]), by decide,
    C3_sorted_stable [] [r1, r2, r3] _ (by decide)⟩

/-! Association-list and index lemmas. -/

theorem lookupA_updA_self {α : Type} (m : List (String × α)) (k : String) (v : α) :
    lookupA (updA m k v) k = some v := by
  induction m with
  | nil => simp [updA, lookupA]
  | cons kv m ih =>
    obtain ⟨k', v'⟩ := kv
    by_cases h : k' = k
    · simp [updA, h, lookupA]
    · simp [updA, h, lookupA, ih]

theorem lookupA_updA_ne {α : Type} (m : List (String × α)) (k q : String) (v : α)
    (h : q ≠ k) : lookupA (updA m k v) q = lookupA m q := by
  induction m with
  | nil => simp [updA, lookupA, Ne.symm h]
  | cons kv m ih =>
    obtain ⟨k', v'⟩ := kv
    by_cases h1 : k' = k
    · subst h1
      simp [updA, lookupA, Ne.symm h]
    · simp [updA, lookupA, h1, ih]

theorem updA_self_id {α : Type} (m : List (String × α)) (k : String) (v : α)
    (h : lookupA m k = some v) : updA m k v = m := by
  induction m with
  | nil => simp [lookupA] at h
  | cons kv m ih =>
    obtain ⟨k', v'⟩ := kv
    by_cases h1 : k' = k
    · subst h1
      simp only [lookupA, if_pos rfl] at h
      simp [updA, Option.some.inj h]
    · simp only [lookupA, h1, if_neg, not_false_iff] at h
      simp [updA, h1, ih h]

theorem updA_notfound {α : Type} (m : List (String × α)) (k : String) (v : α)
    (h : lookupA m k = none) : updA m k v = m ++ [(k, v)] := by
  induction m with
  | nil => simp [updA]
  | cons kv m ih =>
    obtain ⟨k', v'⟩ := kv
    by_cases h1 : k' = k
    · simp [lookupA, h1] at h
    · simp only [lookupA, h1, if_neg, not_false_iff] at h
      simp [updA, h1, ih h]

theorem mem_insS {x y : String} {l : List String} : x ∈ insS y l ↔ x = y ∨ x ∈ l := by
  induction l with
  | nil => simp [insS]
  | cons a as ih =>
    simp only [insS]
    by_cases h : strLtB y a = true
    · simp [h, List.mem_cons]
    · rw [if_neg h]
      simp only [List.mem_cons, ih]
      tauto

theorem mem_sortS {x : String} {l : List String} : x ∈ sortS l ↔ x ∈ l := by
  induction l with
  | nil => simp [sortS]
  | cons a as ih => simp [sortS, mem_insS, ih]

theorem mem_addYmTo {l : List String} {ym x : String} (h : x ∈ l) : x ∈ addYmTo l ym := by
  unfold addYmTo
  split
  · exact h
  · exact mem_sortS.mpr (List.mem_append_left _ h)

theorem self_mem_addYmTo (l : List String) (ym : String) : ym ∈ addYmTo l ym := by
  unfold addYmTo
  split
  · assumption
  · exact mem_sortS.mpr (List.mem_append_right _ (by simp))

theorem hasTriple_iff {vm : VMap} {v c ym : String} :
    hasTriple vm v c ym = true ↔ ym ∈ (lookupA ((lookupA vm v).getD []) c).getD [] := by
  simp [hasTriple]

theorem hasTriple_addVer_mono {vm : VMap} {v' c' ym' : String} (v c ym : String)
    (h : hasTriple vm v' c' ym' = true) :
    hasTriple (addVer vm v c ym) v' c' ym' = true := by
  rw [hasTriple_iff] at h ⊢
  unfold addVer
  by_cases hv : v' = v
  · subst hv
    rw [lookupA_updA_self]
    simp only [Option.getD_some]
    by_cases hc : c' = c
    · subst hc
      rw [lookupA_updA_self]
      simp only [Option.getD_some]
      exact mem_addYmTo h
    · rw [lookupA_updA_ne _ _ _ _ hc]
      exact h
  · rw [lookupA_updA_ne _ _ _ _ hv]
    exact h

theorem hasTriple_addVer_self (vm : VMap) (v c ym : String) :
    hasTriple (addVer vm v c ym) v c ym = true := by
  rw [hasTriple_iff]
  unfold addVer
  rw [lookupA_updA_self]
  simp only [Option.getD_some]
  rw [lookupA_updA_self]
  simp only [Option.getD_some]
  exact self_mem_addYmTo _ _

theorem hasTriple_applyInfo_mono {vm : VMap} {v' c' ym' : String} (i : AffInfo)
    (h : hasTriple vm v' c' ym' = true) :
    hasTriple (applyInfo vm i) v' c' ym' = true := by
  unfold applyInfo
  generalize versionsInFile i.reviews = vs
  induction vs generalizing vm with
  | nil => exact h
  | cons v vs ih => exact ih (hasTriple_addVer_mono _ _ _ h)

theorem hasTriple_updIdx_mono {vm : VMap} {v' c' ym' : String} (infos : List AffInfo)
    (h : hasTriple vm v' c' ym' = true) :
    hasTriple (updIdx infos vm) v' c' ym' = true := by
  unfold updIdx
  induction infos generalizing vm with
  | nil => exact h
  | cons i infos ih => exact ih (hasTriple_applyInfo_mono i h)

/-- Claim C9.  `update_index` never removes a mapping: every
`(version, country, ym)` triple present before the update is still present
after it, whatever the affected-file contents passed in. -/
theorem C9_index_never_removes (st : Store) (infos : List AffInfo) (now v c ym : String)
    (h : hasTripleI st.index v c ym = true) :
    hasTripleI (update_index st infos now).index v c ym = true := by
  rcases hidx : st.index with _ | idx
  · rw [hidx] at h
    simp [hasTripleI] at h
  · rw [hidx] at h
    simp only [hasTripleI] at h
    simp only [update_index, hasTripleI, indexD, hidx, Option.getD_some]
    exact hasTriple_updIdx_mono infos h

/-- Witness for C9 at a concrete input: an index triple survives an update
whose touched partition no longer contains that version. -/
theorem C9_index_never_removes_w :
    let st : Store := ⟨[("reviews/jp/2024/05.json", [])],
      some ⟨"t0", [("1.0", [("jp", ["2024/05"])])]⟩⟩
    let i : AffInfo := ⟨"reviews/jp/2024/05.json", "jp", "2024/05",
      [⟨"ios", "b", "u", .dt ⟨2024, 5, 2, 0, 0, 0, 0⟩, 4, "", "", some "2.0", "jp"⟩]⟩
    hasTripleI st.index "1.0" "jp" "2024/05" = true ∧
    hasTripleI (update_index st [i] "t1").index "1.0" "jp" "2024/05" = true := by
  intro st i
  exact ⟨by decide, C9_index_never_removes st [i] "t1" "1.0" "jp" "2024/05" (by decide)⟩

/-- Claim C10.  An empty batch writes no partition but still rewrites the
index with a fresh `updated_at` and an unchanged `versions` mapping; and
every run that completes rewrites the index document with `updated_at` set to
the run's timestamp. -/
theorem C10_index_restamped :
    (∀ st : Store, ∀ base now : String,
      save_reviewsRun st [] base now =
        ({ parts := st.parts, index := some ⟨now, (indexD st).versions⟩ }, true)) ∧
    (∀ st : Store, ∀ batch : List Review, ∀ base now : String, ∀ st' : Store,
      save_reviewsRun st batch base now = (st', true) →
      ∃ vm : VMap, st'.index = some ⟨now, vm⟩) := by
  constructor
  · intro st base now
    rfl
  · intro st batch base now st' h
    unfold save_reviewsRun at h
    rcases hp : processGroups base st (groupReviews batch) with ⟨st'', infos, ok⟩
    rw [hp] at h
    rcases ok with _ | _
    · simp at h
    · simp only at h
      have : st' = update_index st'' infos now := (Prod.mk.injEq _ _ _ _ ▸ h).1.symm
      subst this
      exact ⟨updIdx infos (indexD st'').versions, rfl⟩

/-- Witness for C10 at a concrete input. -/
theorem C10_index_restamped_w :
    let st : Store := ⟨[("reviews/jp/2024/05.json",
      [⟨"ios", "a", "u", .str ⟨2024, 5, 1, 0, 0, 0, 0⟩, 5, "", "", some "1.0", "jp"⟩])],
      some ⟨"t0", [("1.0", [("jp", ["2024/05"])])]⟩⟩
    save_reviewsRun st [] "reviews" "t9" =
      ({ parts := st.parts, index := some ⟨"t9", (indexD st).versions⟩ }, true) ∧
    ∃ vm : VMap, (save_reviewsRun st [] "reviews" "t9").1.index = some ⟨"t9", vm⟩ := by
  intro st
  refine ⟨C10_index_restamped.1 st "reviews" "t9", ?_⟩
  exact C10_index_restamped.2 st [] "reviews" "t9" _ (by decide)

/-! Behaviour of a run in which one partition's merge fails. -/

theorem processGroups_index (base : String) (st : Store)
    (gs : List ((String × String) × List Review)) :
    (processGroups base st gs).1.index = st.index := by
  induction gs generalizing st with
  | nil => rfl
  | cons g rest ih =>
    obtain ⟨⟨c, s⟩, grp⟩ := g
    simp only [processGroups]
    rcases h : pySortRev (mergeDedup ((lookupA st.parts (partPath base c s)).getD []) grp) with
      _ | out
    · rfl
    · exact ih _

theorem processGroups_fail (base : String) (gs : List ((String × String) × List Review))
    (st st' : Store) (infos : List AffInfo)
    (h : processGroups base st gs = (st', infos, false)) :
    ∃ done key grp rest st2 infos2,
      gs = done ++ (key, grp) :: rest ∧
      processGroups base st done = (st2, infos2, true) ∧ st' = st2 ∧
      pySortRev (mergeDedup ((lookupA st2.parts (partPath base key.1 key.2)).getD []) grp) =
        none := by
  induction gs generalizing st infos with
  | nil => simp [processGroups] at h
  | cons g rest ih =>
    obtain ⟨⟨c, s⟩, grp⟩ := g
    rcases hs : pySortRev (mergeDedup ((lookupA st.parts (partPath base c s)).getD []) grp) with
      _ | out
    · simp only [processGroups, hs, Prod.mk.injEq] at h
      obtain ⟨h1, -, -⟩ := h
      subst h1
      exact ⟨[], (c, s), grp, rest, st, [], rfl, rfl, rfl, hs⟩
    · simp only [processGroups, hs] at h
      rcases hres : processGroups base
          { parts := updA st.parts (partPath base c s) (out.map serialize),
            index := st.index } rest with
        ⟨stR, infosR, okR⟩
      rw [hres] at h
      simp only [Prod.mk.injEq] at h
      obtain ⟨h1, -, h3⟩ := h
      subst h1
      rcases okR with _ | _
      · obtain ⟨done, key, grp', rest', st2, infos2, hg, hdone, hst, hfail⟩ :=
          ih _ _ hres
        refine ⟨((c, s), grp) :: done, key, grp', rest', st2,
          ⟨partPath base c s, c, s, out⟩ :: infos2, by simp [hg], ?_, hst, hfail⟩
        simp only [processGroups, hs, hdone]
      · exact absurd h3.symm (by simp)

/-- Claim C6 is false on the code; this is the amended statement.
`save_reviews` has no try/except, so when one partition's merge raises, the
whole run aborts: the groups before the failing one keep their writes, the
failing and all later groups are not processed, and `update_index` never
runs (the index is exactly what it was before the run). -/
theorem C6_partition_failure_aborts_run (st : Store) (batch : List Review) (base now : String)
    (st' : Store) (h : save_reviewsRun st batch base now = (st', false)) :
    st'.index = st.index ∧
    ∃ done key grp rest st2 infos2,
      groupReviews batch = done ++ (key, grp) :: rest ∧
      processGroups base st done = (st2, infos2, true) ∧ st' = st2 ∧
      pySortRev (mergeDedup ((lookupA st2.parts (partPath base key.1 key.2)).getD []) grp) =
        none := by
  unfold save_reviewsRun at h
  rcases hp : processGroups base st (groupReviews batch) with ⟨st2, infos, ok⟩
  rw [hp] at h
  rcases ok with _ | _
  · simp only [Prod.mk.injEq] at h
    obtain ⟨h1, -⟩ := h
    subst h1
    constructor
    · have hidx := processGroups_index base st (groupReviews batch)
      rw [hp] at hidx
      exact hidx
    · exact processGroups_fail base _ st _ infos hp
  · simp at h

/-- Counterexample for C6 as stated: one batch, two groups.  The first group
targets an existing partition (whose stored dates are strings) with a new
record (a datetime object), so its sort raises; the second group's partition
is never created, the index is not updated, and no partial-success result is
produced — the run just fails with the store exactly as before. -/
theorem C6_other_partitions_not_processed_cx :
    let oldR : Review := ⟨"ios", "a", "u", .str ⟨2024, 5, 1, 0, 0, 0, 0⟩, 5, "", "",
      some "1.0", "jp"⟩
    let n1 : Review := ⟨"ios", "b", "u", .dt ⟨2024, 5, 2, 0, 0, 0, 0⟩, 4, "", "",
      some "1.0", "jp"⟩
    let n2 : Review := ⟨"ios", "c", "u", .dt ⟨2024, 6, 1, 0, 0, 0, 0⟩, 3, "", "",
      some "1.1", "jp"⟩
    let st0 : Store := ⟨[("reviews/jp/2024/05.json", [oldR])],
      some ⟨"t0", [("1.0", [("jp", ["2024/05"])])]⟩⟩
    save_reviewsRun st0 [n1, n2] "reviews" "t1" = (st0, false) ∧
    lookupA st0.parts "reviews/jp/2024/06.json" = none := by
  decide

/-- Witness for the amended C6 theorem at the same concrete input. -/
theorem C6_partition_failure_aborts_run_w :
    let oldR : Review := ⟨"ios", "a", "u", .str ⟨2024, 5, 1, 0, 0, 0, 0⟩, 5, "", "",
      some "1.0", "jp"⟩
    let n1 : Review := ⟨"ios", "b", "u", .dt ⟨2024, 5, 2, 0, 0, 0, 0⟩, 4, "", "",
      some "1.0", "jp"⟩
    let n2 : Review := ⟨"ios", "c", "u", .dt ⟨2024, 6, 1, 0, 0, 0, 0⟩, 3, "", "",
      some "1.1", "jp"⟩
    let st0 : Store := ⟨[("reviews/jp/2024/05.json", [oldR])],
      some ⟨"t0", [("1.0", [("jp", ["2024/05"])])]⟩⟩
    st0.index = st0.index ∧
    ∃ done key grp rest st2 infos2,
      groupReviews [n1, n2] = done ++ (key, grp) :: rest ∧
      processGroups "reviews" st0 done = (st2, infos2, true) ∧ st0 = st2 ∧
      pySortRev (mergeDedup ((lookupA st2.parts (partPath "reviews" key.1 key.2)).getD [])
        grp) = none := by
  intro oldR n1 n2 st0
  exact C6_partition_failure_aborts_run st0 [n1, n2] "reviews" "t1" st0 (by decide)

/-! Partition path shapes and injectivity. -/

theorem natDigsAux_length {f n k : Nat} (hk : 1 ≤ k) (hn : n < 10 ^ k) :
    (natDigsAux f n).length ≤ k := by
  induction f generalizing n k with
  | zero => simpa [natDigsAux] using hk
  | succ f ih =>
    rw [natDigsAux]
    by_cases h : n < 10
    · simpa [h] using hk
    · rw [if_neg h]
      obtain ⟨k', rfl⟩ : ∃ k', k = k' + 1 := ⟨k - 1, by omega⟩
      have hk' : 1 ≤ k' := by
        rcases Nat.eq_zero_or_pos k' with hz | hp
        · subst hz
          simp [pow_one] at hn
          omega
        · exact hp
      have hd : n / 10 < 10 ^ k' := by
        have hmul : n < 10 ^ k' * 10 := by
          rw [← pow_succ]
          exact hn
        exact (Nat.div_lt_iff_lt_mul (by norm_num)).mpr hmul
      have := ih hk' hd
      simp only [List.length_append, List.length_cons, List.length_nil]
      omega

theorem padN_length {k n : Nat} (hk : 1 ≤ k) (h : n < 10 ^ k) : (padN k n).length = k := by
  have hlen : (natDigs n).length ≤ k := natDigsAux_length hk h
  show (List.replicate (k - (natDigs n).length) '0' ++ natDigs n).length = k
  rw [List.length_append, List.length_replicate]
  omega

theorem ymS_length {y mo : Nat} (hy : y < 10000) (hmo : mo < 100) : (ymS y mo).length = 7 := by
  have h1 : (padN 4 y).length = 4 := padN_length (by norm_num) (by simpa using hy)
  have h2 : (padN 2 mo).length = 2 := padN_length (by norm_num) (by simpa using hmo)
  show ((padN 4 y ++ "/") ++ padN 2 mo).length = 7
  rw [String.length_append, String.length_append, h1, h2]
  rfl

theorem strData_append (a b : String) : (a ++ b).data = a.data ++ b.data := by
  cases a
  cases b
  rfl

theorem partPath_inj {base c1 s1 c2 s2 : String} (h1 : s1.length = 7) (h2 : s2.length = 7)
    (he : partPath base c1 s1 = partPath base c2 s2) : c1 = c2 ∧ s1 = s2 := by
  have hd : base.data ++ '/' :: (c1.data ++ '/' :: (s1.data ++ ".json".data)) =
      base.data ++ '/' :: (c2.data ++ '/' :: (s2.data ++ ".json".data)) := by
    have hx := congrArg String.data he
    simp only [partPath, strData_append, List.append_assoc] at hx
    simpa using hx
  have ht : c1.data ++ '/' :: (s1.data ++ ".json".data) =
      c2.data ++ '/' :: (s2.data ++ ".json".data) := by
    have := (List.append_inj hd rfl).2
    exact List.cons.inj this |>.2
  have hlen1 : s1.data.length = 7 := h1
  have hlen2 : s2.data.length = 7 := h2
  have hclen : c1.data.length = c2.data.length := by
    have := congrArg List.length ht
    simp only [List.length_append, List.length_cons] at this
    omega
  have hc := List.append_inj ht hclen
  have hs : s1.data ++ ".json".data = s2.data ++ ".json".data :=
    List.cons.inj hc.2 |>.2
  have hsd : s1.data = s2.data := (List.append_inj hs (by rw [hlen1, hlen2])).1
  exact ⟨congrArg String.mk hc.1, congrArg String.mk hsd⟩

/-! Grouping lemmas. -/

theorem insG_forall {P : Review → Prop} {acc : List ((String × String) × List Review)}
    {k : String × String} {r : Review}
    (hacc : ∀ kg ∈ acc, ∀ x ∈ kg.2, P x ∧ keyOf x = kg.1)
    (hr : P r) (hk : keyOf r = k) :
    ∀ kg ∈ insG acc k r, ∀ x ∈ kg.2, P x ∧ keyOf x = kg.1 := by
  induction acc with
  | nil =>
    intro kg hkg x hx
    simp only [insG, List.mem_singleton] at hkg
    subst hkg
    simp only [List.mem_singleton] at hx
    subst hx
    exact ⟨hr, hk⟩
  | cons a acc ih =>
    obtain ⟨k', l⟩ := a
    intro kg hkg x hx
    simp only [insG] at hkg
    by_cases h : k' = k
    · rw [if_pos h] at hkg
      rcases List.mem_cons.mp hkg with hkg | hkg
      · subst hkg
        rcases List.mem_append.mp hx with hx | hx
        · exact hacc (k', l) (List.mem_cons_self _ _) x hx
        · simp only [List.mem_singleton] at hx
          subst hx
          exact ⟨hr, h ▸ hk⟩
      · exact hacc kg (List.mem_cons_of_mem _ hkg) x hx
    · rw [if_neg h] at hkg
      rcases List.mem_cons.mp hkg with hkg | hkg
      · subst hkg
        exact hacc (k', l) (List.mem_cons_self _ _) x hx
      · exact ih (fun kg2 hkg2 => hacc kg2 (List.mem_cons_of_mem _ hkg2)) kg hkg x hx

theorem groupAux_forall {P : Review → Prop} {rs : List Review}
    {acc : List ((String × String) × List Review)}
    (hacc : ∀ kg ∈ acc, ∀ x ∈ kg.2, P x ∧ keyOf x = kg.1)
    (hrs : ∀ r ∈ rs, P r) :
    ∀ kg ∈ groupAux rs acc, ∀ x ∈ kg.2, P x ∧ keyOf x = kg.1 := by
  induction rs generalizing acc with
  | nil => exact hacc
  | cons r rs ih =>
    exact ih (insG_forall hacc (hrs r (List.mem_cons_self _ _)) rfl)
      (fun x hx => hrs x (List.mem_cons_of_mem _ hx))

theorem groupReviews_forall {batch : List Review} :
    ∀ kg ∈ groupReviews batch, ∀ x ∈ kg.2, x ∈ batch ∧ keyOf x = kg.1 :=
  groupAux_forall (by simp) (fun _ h => h)

theorem insG_keys (acc : List ((String × String) × List Review)) (k : String × String)
    (r : Review) :
    (insG acc k r).map Prod.fst =
      if k ∈ acc.map Prod.fst then acc.map Prod.fst else acc.map Prod.fst ++ [k] := by
  induction acc with
  | nil => simp [insG]
  | cons a acc ih =>
    obtain ⟨k', l⟩ := a
    simp only [insG]
    by_cases h : k' = k
    · subst h
      simp
    · rw [if_neg h]
      simp only [List.map_cons, ih]
      have hne : ¬ (k = k') := fun hc => h hc.symm
      by_cases h2 : k ∈ acc.map Prod.fst
      · rw [if_pos h2, if_pos (List.mem_cons.mpr (Or.inr h2))]
      · rw [if_neg h2, if_neg (by simp [List.mem_cons, hne, h2]), List.cons_append]

theorem groupAux_keys_nodup {rs : List Review} {acc : List ((String × String) × List Review)}
    (h : (acc.map Prod.fst).Nodup) : ((groupAux rs acc).map Prod.fst).Nodup := by
  induction rs generalizing acc with
  | nil => exact h
  | cons r rs ih =>
    apply ih
    rw [insG_keys]
    by_cases h2 : keyOf r ∈ acc.map Prod.fst
    · simpa [h2]
    · rw [if_neg h2]
      refine List.Nodup.append h (List.nodup_singleton _) ?_
      intro a ha hb
      rw [List.mem_singleton] at hb
      subst hb
      exact h2 ha

theorem groupReviews_keys_nodup (batch : List Review) :
    ((groupReviews batch).map Prod.fst).Nodup :=
  groupAux_keys_nodup (by simp)

theorem insG_self (acc : List ((String × String) × List Review)) (k : String × String)
    (r : Review) : ∃ l, (k, l) ∈ insG acc k r ∧ r ∈ l := by
  induction acc with
  | nil => exact ⟨[r], by simp [insG]⟩
  | cons a acc ih =>
    obtain ⟨k', l⟩ := a
    simp only [insG]
    by_cases h : k' = k
    · subst h
      exact ⟨l ++ [r], by simp⟩
    · obtain ⟨l', hl', hr'⟩ := ih
      exact ⟨l', by simp [h, hl'], hr'⟩

theorem insG_grows {acc : List ((String × String) × List Review)} {k : String × String}
    {r : Review} (k0 : String × String) (r0 : Review)
    (h : ∃ l, (k, l) ∈ acc ∧ r ∈ l) : ∃ l, (k, l) ∈ insG acc k0 r0 ∧ r ∈ l := by
  induction acc with
  | nil => simp at h
  | cons a acc ih =>
    obtain ⟨k', l'⟩ := a
    obtain ⟨l, hl, hr⟩ := h
    simp only [insG]
    by_cases hk : k' = k0
    · rw [if_pos hk]
      rcases List.mem_cons.mp hl with hl | hl
      · injection hl with h1 h2
        exact ⟨l' ++ [r0], by rw [h1]; exact List.mem_cons_self _ _,
          List.mem_append_left _ (h2 ▸ hr)⟩
      · exact ⟨l, List.mem_cons_of_mem _ hl, hr⟩
    · rw [if_neg hk]
      rcases List.mem_cons.mp hl with hl | hl
      · exact ⟨l, List.mem_cons.mpr (Or.inl hl), hr⟩
      · obtain ⟨l2, hl2, hr2⟩ := ih ⟨l, hl, hr⟩
        exact ⟨l2, List.mem_cons_of_mem _ hl2, hr2⟩

theorem groupAux_grows {rs : List Review} {acc : List ((String × String) × List Review)}
    {k : String × String} {r : Review} (h : ∃ l, (k, l) ∈ acc ∧ r ∈ l) :
    ∃ l, (k, l) ∈ groupAux rs acc ∧ r ∈ l := by
  induction rs generalizing acc with
  | nil => exact h
  | cons x rs ih => exact ih (insG_grows _ _ h)

theorem groupAux_complete {rs : List Review} {r : Review} (h : r ∈ rs)
    (acc : List ((String × String) × List Review)) :
    ∃ l, (keyOf r, l) ∈ groupAux rs acc ∧ r ∈ l := by
  induction rs generalizing acc with
  | nil => simp at h
  | cons x rs ih =>
    rw [show groupAux (x :: rs) acc = groupAux rs (insG acc (keyOf x) x) from rfl]
    rcases List.mem_cons.mp h with h | h
    · subst h
      exact groupAux_grows (insG_self acc (keyOf r) r)
    · exact ih h _

theorem groupReviews_complete {batch : List Review} {r : Review} (h : r ∈ batch) :
    ∃ l, (keyOf r, l) ∈ groupReviews batch ∧ r ∈ l :=
  groupAux_complete h []

/-! Helper lemmas about serialization, versions, and merge ids. -/

theorem serialize_country (r : Review) : (serialize r).country = r.country := rfl

theorem serialize_id (r : Review) : (serialize r).id = r.id := rfl

theorem effVersion_serialize (r : Review) : effVersion (serialize r) = effVersion r := rfl

theorem mem_dedupS {l : List String} {x : String} :
    ∀ {seen : List String}, x ∈ dedupS seen l ↔ x ∈ l ∧ x ∉ seen := by
  induction l with
  | nil => intro seen; simp [dedupS]
  | cons y l ih =>
    intro seen
    simp only [dedupS]
    by_cases h : y ∈ seen
    · rw [if_pos h, ih]
      constructor
      · rintro ⟨h1, h2⟩
        exact ⟨List.mem_cons_of_mem _ h1, h2⟩
      · rintro ⟨h1, h2⟩
        rcases List.mem_cons.mp h1 with h1 | h1
        · exact absurd (h1 ▸ h) h2
        · exact ⟨h1, h2⟩
    · rw [if_neg h]
      constructor
      · intro hx
        rcases List.mem_cons.mp hx with hx | hx
        · exact ⟨hx ▸ List.mem_cons_self _ _, hx ▸ h⟩
        · rw [ih] at hx
          obtain ⟨h1, h2⟩ := hx
          exact ⟨List.mem_cons_of_mem _ h1, fun hc => h2 (List.mem_cons_of_mem _ hc)⟩
      · rintro ⟨h1, h2⟩
        rcases List.mem_cons.mp h1 with h1 | h1
        · exact h1 ▸ List.mem_cons_self _ _
        · by_cases hxy : x = y
          · exact hxy ▸ List.mem_cons_self _ _
          · refine List.mem_cons_of_mem _ (ih.mpr ⟨h1, ?_⟩)
            intro hc
            rcases List.mem_cons.mp hc with hc | hc
            · exact hxy hc
            · exact h2 hc

theorem mem_versionsInFile {l : List Review} {v : String} :
    v ∈ versionsInFile l ↔ ∃ r ∈ l, effVersion r = v := by
  unfold versionsInFile
  rw [mem_dedupS]
  simp [List.mem_map]

theorem pySortRev_some {l out : List Review} (h : pySortRev l = some out) : out = sortD l := by
  unfold pySortRev at h
  split at h
  · exact absurd h (by simp)
  · exact (Option.some.inj h).symm

theorem mergeNew_ids {new : List Review} {r : Review} (h : r ∈ new) :
    ∀ (seen : List String), r.id ∈ seen ∨ r.id ∈ ids (mergeNew seen new) := by
  induction new with
  | nil => simp at h
  | cons x xs ih =>
    intro seen
    rw [mergeNew]
    rcases List.mem_cons.mp h with h | h
    · subst h
      by_cases hx : r.id ∈ seen
      · exact Or.inl hx
      · rw [if_neg hx]
        right
        simp [ids]
    · by_cases hx : x.id ∈ seen
      · rw [if_pos hx]
        exact ih h seen
      · rw [if_neg hx]
        rcases ih h (x.id :: seen) with hh | hh
        · rcases List.mem_cons.mp hh with hh | hh
          · right
            simp [ids, hh]
          · exact Or.inl hh
        · right
          simp only [ids, List.map_cons, List.mem_cons]
          right
          exact hh

theorem ids_append (a b : List Review) : ids (a ++ b) = ids a ++ ids b := by
  simp [ids]

theorem mem_ids_mergeDedup {existing new : List Review} {r : Review} (h : r ∈ new) :
    r.id ∈ ids (mergeDedup existing new) := by
  unfold mergeDedup
  rw [ids_append]
  rcases mergeNew_ids h (ids existing) with hh | hh
  · exact List.mem_append_left _ hh
  · exact List.mem_append_right _ hh

theorem forall₂_imp_mem {α β : Type} {R S : α → β → Prop} :
    ∀ {l1 : List α} {l2 : List β}, List.Forall₂ R l1 l2 →
      (∀ a ∈ l1, ∀ b, R a b → S a b) → List.Forall₂ S l1 l2 := by
  intro l1 l2 h
  induction h with
  | nil => exact fun _ => List.Forall₂.nil
  | @cons a b l1' l2' hab htail ih =>
    intro hmem
    exact List.Forall₂.cons (hmem _ (List.mem_cons_self _ _) _ hab)
      (ih fun x hx y hr => hmem x (List.mem_cons_of_mem _ hx) y hr)

theorem forall₂_exists_of_mem {α β : Type} {R : α → β → Prop} :
    ∀ {l1 : List α} {l2 : List β}, List.Forall₂ R l1 l2 → ∀ a ∈ l1, ∃ b ∈ l2, R a b := by
  intro l1 l2 h
  induction h with
  | nil => simp
  | @cons a b l1' l2' hab htail ih =>
    intro x hx
    rcases List.mem_cons.mp hx with hx | hx
    · exact ⟨b, List.mem_cons_self _ _, hx ▸ hab⟩
    · obtain ⟨y, hy, hr⟩ := ih x hx
      exact ⟨y, List.mem_cons_of_mem _ hy, hr⟩

/-- What a fully successful pass over the groups does: every path outside the
touched set is untouched, and each group corresponds (in order) to an
affected-file entry whose merge read the pre-run content of its partition and
whose sorted result is what the final store holds (serialized). -/
theorem processGroups_ok (base : String) (gs : List ((String × String) × List Review))
    (st st' : Store) (infos : List AffInfo)
    (hnd : (gs.map Prod.fst).Nodup)
    (hsh : ∀ k ∈ gs.map Prod.fst, (k.2 : String).length = 7)
    (h : processGroups base st gs = (st', infos, true)) :
    (∀ p, (∀ k ∈ gs.map Prod.fst, p ≠ partPath base k.1 k.2) →
      lookupA st'.parts p = lookupA st.parts p) ∧
    List.Forall₂ (fun (kg : (String × String) × List Review) (i : AffInfo) =>
      i.path = partPath base kg.1.1 kg.1.2 ∧ i.country = kg.1.1 ∧ i.ym = kg.1.2 ∧
      pySortRev (mergeDedup ((lookupA st.parts i.path).getD []) kg.2) = some i.reviews ∧
      lookupA st'.parts i.path = some (i.reviews.map serialize)) gs infos := by
  induction gs generalizing st infos with
  | nil =>
    simp only [processGroups, Prod.mk.injEq] at h
    obtain ⟨h1, h2, -⟩ := h
    subst h1
    subst h2
    exact ⟨fun p _ => rfl, List.Forall₂.nil⟩
  | cons g rest ih =>
    obtain ⟨⟨c, s⟩, grp⟩ := g
    rcases hs : pySortRev (mergeDedup ((lookupA st.parts (partPath base c s)).getD []) grp)
      with _ | out
    · simp [processGroups, hs] at h
    · simp only [processGroups, hs] at h
      rcases hres : processGroups base
          { parts := updA st.parts (partPath base c s) (out.map serialize),
            index := st.index } rest with ⟨stR, infosR, okR⟩
      rw [hres] at h
      simp only [Prod.mk.injEq] at h
      obtain ⟨h1, h2, h3⟩ := h
      subst h1
      subst h3
      have hnd' : ((c, s) :: rest.map Prod.fst).Nodup := by
        simpa only [List.map_cons] using hnd
      obtain ⟨hnd1, hnd2⟩ := List.nodup_cons.mp hnd'
      have hshh : s.length = 7 := hsh (c, s) (by simp)
      have hshr : ∀ k ∈ rest.map Prod.fst, (k.2 : String).length = 7 :=
        fun k hk => hsh k (by simp [hk])
      have hpne : ∀ k ∈ rest.map Prod.fst, partPath base c s ≠ partPath base k.1 k.2 := by
        intro k hk heq
        obtain ⟨hc, hsq⟩ := partPath_inj hshh (hshr k hk) heq
        apply hnd1
        have : k = (c, s) := by
          obtain ⟨ka, kb⟩ := k
          simp only [Prod.mk.injEq]
          exact ⟨hc.symm, hsq.symm⟩
        rw [← this]
        exact hk
      obtain ⟨ihframe, ihrel⟩ := ih _ _ hnd2 hshr hres
      constructor
      · intro p hp
        have h1 := ihframe p (fun k hk => hp k (List.mem_cons_of_mem _ hk))
        have h2' := lookupA_updA_ne st.parts (partPath base c s) p (out.map serialize)
          (hp (c, s) (List.mem_cons_self _ _))
        exact h1.trans h2'
      · rw [← h2]
        refine List.Forall₂.cons ?_ ?_
        · refine ⟨rfl, rfl, rfl, hs, ?_⟩
          have h1 := ihframe (partPath base c s) hpne
          rw [h1]
          exact lookupA_updA_self st.parts (partPath base c s) (out.map serialize)
        · refine forall₂_imp_mem ihrel ?_
          intro kg hkg i hR
          obtain ⟨hR1, hR2, hR3, hR4, hR5⟩ := hR
          refine ⟨hR1, hR2, hR3, ?_, hR5⟩
          have hkey : kg.1 ∈ rest.map Prod.fst := List.mem_map_of_mem _ hkg
          have hne : i.path ≠ partPath base c s := by
            rw [hR1]
            exact fun hc => hpne kg.1 hkey hc.symm
          rw [← hR4]
          have := lookupA_updA_ne st.parts (partPath base c s) i.path (out.map serialize) hne
          rw [this]

/-! Index self-containment after an update, and batch-level glue. -/

theorem hasTriple_foldl_addVer_mono {vm : VMap} {v' c' ym' : String} (c ym : String)
    (vs : List String) (h : hasTriple vm v' c' ym' = true) :
    hasTriple (vs.foldl (fun m x => addVer m x c ym) vm) v' c' ym' = true := by
  induction vs generalizing vm with
  | nil => exact h
  | cons x vs ih => exact ih (hasTriple_addVer_mono _ _ _ h)

theorem hasTriple_foldl_addVer_self {v c ym : String} {vs : List String} (hv : v ∈ vs) :
    ∀ {vm : VMap}, hasTriple (vs.foldl (fun m x => addVer m x c ym) vm) v c ym = true := by
  induction vs with
  | nil => simp at hv
  | cons x vs ih =>
    intro vm
    rcases List.mem_cons.mp hv with hv | hv
    · subst hv
      rw [List.foldl_cons]
      exact hasTriple_foldl_addVer_mono _ _ _ (hasTriple_addVer_self _ _ _ _)
    · exact ih hv

theorem hasTriple_applyInfo_self {vm : VMap} {i : AffInfo} {v : String}
    (hv : v ∈ versionsInFile i.reviews) :
    hasTriple (applyInfo vm i) v i.country i.ym = true :=
  hasTriple_foldl_addVer_self hv

theorem hasTriple_updIdx_self {infos : List AffInfo} {i : AffInfo} {v : String}
    (hi : i ∈ infos) (hv : v ∈ versionsInFile i.reviews) :
    ∀ {vm : VMap}, hasTriple (updIdx infos vm) v i.country i.ym = true := by
  induction infos with
  | nil => simp at hi
  | cons j infos ih =>
    intro vm
    rcases List.mem_cons.mp hi with hi | hi
    · subst hi
      exact hasTriple_updIdx_mono infos (hasTriple_applyInfo_self hv)
    · exact ih hi

theorem group_nonempty {batch : List Review} :
    ∀ kg ∈ groupReviews batch, kg.2 ≠ [] := by
  have insG_ne : ∀ (acc : List ((String × String) × List Review)) (k : String × String)
      (r : Review), (∀ kg ∈ acc, kg.2 ≠ []) → ∀ kg ∈ insG acc k r, kg.2 ≠ [] := by
    intro acc
    induction acc with
    | nil =>
      intro k r _ kg hkg
      simp only [insG, List.mem_singleton] at hkg
      subst hkg
      simp
    | cons a acc ih =>
      obtain ⟨k', l⟩ := a
      intro k r hacc kg hkg
      simp only [insG] at hkg
      by_cases h : k' = k
      · rw [if_pos h] at hkg
        rcases List.mem_cons.mp hkg with hkg | hkg
        · subst hkg
          simp
        · exact hacc kg (List.mem_cons_of_mem _ hkg)
      · rw [if_neg h] at hkg
        rcases List.mem_cons.mp hkg with hkg | hkg
        · subst hkg
          exact hacc (k', l) (List.mem_cons_self _ _)
        · exact ih k r (fun kg2 h2 => hacc kg2 (List.mem_cons_of_mem _ h2)) kg hkg
  suffices hgen : ∀ (rs : List Review) (acc : List ((String × String) × List Review)),
      (∀ kg ∈ acc, kg.2 ≠ []) → ∀ kg ∈ groupAux rs acc, kg.2 ≠ [] by
    exact hgen batch [] (by simp)
  intro rs
  induction rs with
  | nil => exact fun acc hacc => hacc
  | cons x rs ih => exact fun acc hacc => ih _ (insG_ne acc (keyOf x) x hacc)

theorem wfRec_props {r : Review} (h : wfRecB r = true) :
    ∃ t : DT, r.date = .dt t ∧ t.y < 10000 ∧ t.mo < 100 := by
  unfold wfRecB at h
  rcases hd : r.date with t | t
  · rw [hd] at h
    simp only [Bool.and_eq_true, decide_eq_true_eq] at h
    exact ⟨t, rfl, h.1, h.2⟩
  · rw [hd] at h
    simp at h

theorem wf_group_shapes {batch : List Review} (hwf : wfBatchB batch = true) :
    ∀ k ∈ (groupReviews batch).map Prod.fst, (k.2 : String).length = 7 := by
  intro k hk
  obtain ⟨kg, hkg, hfst⟩ := List.mem_map.mp hk
  obtain ⟨r, hr⟩ : ∃ r, r ∈ kg.2 := by
    rcases hg : kg.2 with _ | ⟨r, l⟩
    · exact absurd hg (group_nonempty kg hkg)
    · exact ⟨r, hg.symm ▸ List.mem_cons_self r _⟩
  obtain ⟨hrb, hkey⟩ := groupReviews_forall kg hkg r hr
  have hwr : wfRecB r = true := by
    rw [wfBatchB, List.all_eq_true] at hwf
    exact hwf r hrb
  obtain ⟨t, hdt, hy, hmo⟩ := wfRec_props hwr
  rw [← hfst, ← hkey]
  show (keyOf r).2.length = 7
  unfold keyOf
  rw [hdt]
  exact ymS_length hy hmo

/-- Claim C5.  After a completed ingestion run, every distinct version value
present in the final stored content of a partition touched by the run appears
in the index under that partition's country and year-month (a record with a
missing or empty version counting as "Unknown", via `effVersion`). -/
theorem C5_index_completeness (st : Store) (batch : List Review) (base now : String)
    (st' : Store) (c s : String) (doc : List Review) (v : String)
    (hwf : wfBatchB batch = true)
    (hrun : save_reviewsRun st batch base now = (st', true))
    (hkey : (c, s) ∈ (groupReviews batch).map Prod.fst)
    (hdoc : lookupA st'.parts (partPath base c s) = some doc)
    (hv : ∃ r ∈ doc, effVersion r = v) :
    hasTripleI st'.index v c s = true := by
  unfold save_reviewsRun at hrun
  rcases hp : processGroups base st (groupReviews batch) with ⟨st2, infos, ok⟩
  rw [hp] at hrun
  rcases ok with _ | _
  · simp at hrun
  · simp only [Prod.mk.injEq] at hrun
    obtain ⟨h1, -⟩ := hrun
    subst h1
    obtain ⟨-, hrel⟩ := processGroups_ok base (groupReviews batch) st st2 infos
      (groupReviews_keys_nodup batch) (wf_group_shapes hwf) hp
    obtain ⟨kg, hkg, hk1⟩ := List.mem_map.mp hkey
    obtain ⟨i, hi, hR1, hR2, hR3, -, hR5⟩ := forall₂_exists_of_mem hrel kg hkg
    rw [hk1] at hR1 hR2 hR3
    dsimp only at hR1 hR2 hR3
    have hdoc2 : doc = i.reviews.map serialize := by
      have : lookupA st2.parts (partPath base c s) = some doc := hdoc
      rw [← hR1] at this
      rw [hR5] at this
      exact (Option.some.inj this).symm
    obtain ⟨r, hrdoc, hrv⟩ := hv
    rw [hdoc2] at hrdoc
    obtain ⟨r0, hr0, hr0e⟩ := List.mem_map.mp hrdoc
    have hvf : v ∈ versionsInFile i.reviews := by
      rw [mem_versionsInFile]
      refine ⟨r0, hr0, ?_⟩
      rw [← hrv, ← hr0e]
      exact (effVersion_serialize r0).symm
    show hasTriple (updIdx infos (indexD st2).versions) v c s = true
    rw [← hR2, ← hR3]
    exact hasTriple_updIdx_self hi hvf

/-- Witness for C5 at a concrete run. -/
theorem C5_index_completeness_w :
    let r1 : Review := ⟨"ios", "a", "u", .dt ⟨2024, 5, 1, 0, 0, 0, 0⟩, 5, "", "",
      some "1.0", "jp"⟩
    hasTripleI ((save_reviewsRun emptyStore [r1] "reviews" "t1").1).index
      "1.0" "jp" "2024/05" = true := by
  intro r1
  exact C5_index_completeness emptyStore [r1] "reviews" "t1"
    (save_reviewsRun emptyStore [r1] "reviews" "t1").1 "jp" "2024/05"
    [serialize r1] "1.0" (by decide) (by decide) (by decide) (by decide) (by decide)

/-- Claim C8.  After a completed run, each batch record's partition document
lives at exactly `{base}/{country}/{YYYY}/{MM}.json` (country from the
record, year-month from its UTC date), and that document contains a record
with the ingested record's id (the record itself, or — when the id was
already present in that partition — the stored record that deduplication
kept, per C2). -/
theorem C8_partition_path (st : Store) (batch : List Review) (base now : String)
    (st' : Store) (r : Review)
    (hwf : wfBatchB batch = true)
    (hrun : save_reviewsRun st batch base now = (st', true))
    (hr : r ∈ batch) :
    ∃ doc, lookupA st'.parts (partPath base r.country (ymOfD r.date.toDT)) = some doc ∧
      ∃ r', r' ∈ doc ∧ r'.id = r.id := by
  unfold save_reviewsRun at hrun
  rcases hp : processGroups base st (groupReviews batch) with ⟨st2, infos, ok⟩
  rw [hp] at hrun
  rcases ok with _ | _
  · simp at hrun
  · simp only [Prod.mk.injEq] at hrun
    obtain ⟨h1, -⟩ := hrun
    subst h1
    obtain ⟨-, hrel⟩ := processGroups_ok base (groupReviews batch) st st2 infos
      (groupReviews_keys_nodup batch) (wf_group_shapes hwf) hp
    obtain ⟨grp, hgrp, hrin⟩ := groupReviews_complete hr
    obtain ⟨i, hi, hR1, -, -, hR4, hR5⟩ := forall₂_exists_of_mem hrel (keyOf r, grp) hgrp
    refine ⟨i.reviews.map serialize, ?_, ?_⟩
    · show lookupA st2.parts (partPath base r.country (ymOfD r.date.toDT)) =
        some (i.reviews.map serialize)
      rw [show partPath base r.country (ymOfD r.date.toDT) = i.path from hR1.symm]
      exact hR5
    · have hid : r.id ∈ ids (mergeDedup ((lookupA st.parts i.path).getD []) grp) :=
        mem_ids_mergeDedup hrin
      obtain ⟨r0, hr0m, hr0id⟩ := List.mem_map.mp hid
      have hr0rev : r0 ∈ i.reviews := by
        rw [pySortRev_some hR4]
        exact mem_sortD.mpr hr0m
      exact ⟨serialize r0, List.mem_map_of_mem _ hr0rev, by rw [serialize_id, hr0id]⟩

/-- Witness for C8 at a concrete run. -/
theorem C8_partition_path_w :
    let r1 : Review := ⟨"ios", "a", "u", .dt ⟨2024, 5, 1, 0, 0, 0, 0⟩, 5, "", "",
      some "1.0", "jp"⟩
    ∃ doc, lookupA ((save_reviewsRun emptyStore [r1] "reviews" "t1").1).parts
        (partPath "reviews" r1.country (ymOfD r1.date.toDT)) = some doc ∧
      ∃ r', r' ∈ doc ∧ r'.id = r1.id := by
  intro r1
  exact C8_partition_path emptyStore [r1] "reviews" "t1"
    (save_reviewsRun emptyStore [r1] "reviews" "t1").1 r1 (by decide) (by decide)
    (by decide)

/-! Reachable-state invariant (claim C4). -/

theorem lookupA_mem {α : Type} {m : List (String × α)} {k : String} {v : α}
    (h : lookupA m k = some v) : (k, v) ∈ m := by
  induction m with
  | nil => simp [lookupA] at h
  | cons kv m ih =>
    obtain ⟨k', v'⟩ := kv
    rw [lookupA] at h
    by_cases hk : k' = k
    · rw [if_pos hk] at h
      subst hk
      have hv := Option.some.inj h
      subst hv
      exact List.mem_cons_self _ _
    · rw [if_neg hk] at h
      exact List.mem_cons_of_mem _ (ih h)

theorem mem_updA {α : Type} {m : List (String × α)} {k p : String} {v doc : α}
    (h : (p, doc) ∈ updA m k v) : (p, doc) ∈ m ∨ (p, doc) = (k, v) := by
  induction m with
  | nil =>
    simp only [updA, List.mem_singleton] at h
    exact Or.inr h
  | cons kv m ih =>
    obtain ⟨k', v'⟩ := kv
    simp only [updA] at h
    by_cases hk : k' = k
    · rw [if_pos hk] at h
      rcases List.mem_cons.mp h with h | h
      · exact Or.inr h
      · exact Or.inl (List.mem_cons_of_mem _ h)
    · rw [if_neg hk] at h
      rcases List.mem_cons.mp h with h | h
      · exact Or.inl (List.mem_cons.mpr (Or.inl h))
      · rcases ih h with h | h
        · exact Or.inl (List.mem_cons_of_mem _ h)
        · exact Or.inr h

theorem Grows_refl (parts : List (String × List Review)) : Grows parts parts :=
  fun _ doc h => ⟨doc, h, fun r hr => ⟨r, hr, rfl, rfl⟩⟩

theorem Grows_trans {a b c : List (String × List Review)} (h1 : Grows a b) (h2 : Grows b c) :
    Grows a c := by
  intro p doc h
  obtain ⟨doc', hb, hm1⟩ := h1 p doc h
  obtain ⟨doc'', hc, hm2⟩ := h2 p doc' hb
  refine ⟨doc'', hc, fun r hr => ?_⟩
  obtain ⟨r', hr', he1, hc1⟩ := hm1 r hr
  obtain ⟨r'', hr'', he2, hc2⟩ := hm2 r' hr'
  exact ⟨r'', hr'', he2.trans he1, hc2.trans hc1⟩

theorem mem_addYmTo_cases {l : List String} {ym x : String} (h : x ∈ addYmTo l ym) :
    x ∈ l ∨ x = ym := by
  unfold addYmTo at h
  split at h
  · exact Or.inl h
  · rcases List.mem_append.mp (mem_sortS.mp h) with h | h
    · exact Or.inl h
    · exact Or.inr (List.mem_singleton.mp h)

theorem hasTriple_addVer_cases {vm : VMap} {v0 c0 ym0 v c ym : String}
    (h : hasTriple (addVer vm v0 c0 ym0) v c ym = true) :
    hasTriple vm v c ym = true ∨ (v = v0 ∧ c = c0 ∧ ym = ym0) := by
  rw [hasTriple_iff] at h
  unfold addVer at h
  by_cases hv : v = v0
  · subst hv
    rw [lookupA_updA_self] at h
    simp only [Option.getD_some] at h
    by_cases hc : c = c0
    · subst hc
      rw [lookupA_updA_self] at h
      simp only [Option.getD_some] at h
      rcases mem_addYmTo_cases h with h | h
      · left
        rw [hasTriple_iff]
        exact h
      · exact Or.inr ⟨rfl, rfl, h⟩
    · rw [lookupA_updA_ne _ _ _ _ hc] at h
      left
      rw [hasTriple_iff]
      exact h
  · rw [lookupA_updA_ne _ _ _ _ hv] at h
    left
    rw [hasTriple_iff]
    exact h

theorem hasTriple_foldl_addVer_cases {c0 ym0 v c ym : String} {vs : List String} :
    ∀ {vm : VMap}, hasTriple (vs.foldl (fun m x => addVer m x c0 ym0) vm) v c ym = true →
      hasTriple vm v c ym = true ∨ (v ∈ vs ∧ c = c0 ∧ ym = ym0) := by
  induction vs with
  | nil => exact fun h => Or.inl h
  | cons x vs ih =>
    intro vm h
    rw [List.foldl_cons] at h
    rcases ih h with h | ⟨h1, h2, h3⟩
    · rcases hasTriple_addVer_cases h with h | ⟨h1, h2, h3⟩
      · exact Or.inl h
      · exact Or.inr ⟨h1 ▸ List.mem_cons_self _ _, h2, h3⟩
    · exact Or.inr ⟨List.mem_cons_of_mem _ h1, h2, h3⟩

theorem hasTriple_updIdx_cases {infos : List AffInfo} {v c ym : String} :
    ∀ {vm : VMap}, hasTriple (updIdx infos vm) v c ym = true →
      hasTriple vm v c ym = true ∨
        ∃ i ∈ infos, v ∈ versionsInFile i.reviews ∧ c = i.country ∧ ym = i.ym := by
  induction infos with
  | nil => exact fun h => Or.inl h
  | cons j infos ih =>
    intro vm h
    rw [updIdx, List.foldl_cons] at h
    rcases ih h with h | ⟨i, hi, hrest⟩
    · rcases hasTriple_foldl_addVer_cases h with h | ⟨h1, h2, h3⟩
      · exact Or.inl h
      · exact Or.inr ⟨j, List.mem_cons_self _ _, h1, h2, h3⟩
    · exact Or.inr ⟨i, List.mem_cons_of_mem _ hi, hrest⟩

theorem forall₂_exists_of_mem_right {α β : Type} {R : α → β → Prop} :
    ∀ {l1 : List α} {l2 : List β}, List.Forall₂ R l1 l2 → ∀ b ∈ l2, ∃ a ∈ l1, R a b := by
  intro l1 l2 h
  induction h with
  | nil => simp
  | @cons a b l1' l2' hab htail ih =>
    intro y hy
    rcases List.mem_cons.mp hy with hy | hy
    · exact ⟨a, List.mem_cons_self _ _, hy ▸ hab⟩
    · obtain ⟨x, hx, hr⟩ := ih y hy
      exact ⟨x, List.mem_cons_of_mem _ hx, hr⟩

theorem merged_countries {base : String} {st : Store} {c s : String} {grp : List Review}
    (hps : PartsShape base st.parts)
    (hgc : ∀ r ∈ grp, r.country = c)
    (hsh7 : s.length = 7)
    {r : Review} (hr : r ∈ mergeDedup ((lookupA st.parts (partPath base c s)).getD []) grp) :
    r.country = c := by
  unfold mergeDedup at hr
  rcases List.mem_append.mp hr with hr | hr
  · rcases hl : lookupA st.parts (partPath base c s) with _ | e
    · rw [hl] at hr
      simp at hr
    · rw [hl] at hr
      simp only [Option.getD_some] at hr
      obtain ⟨c', y', mo', hy', hmo', hp', hc'⟩ := hps _ _ (lookupA_mem hl)
      have hlen : (ymS y' mo').length = 7 := ymS_length hy' hmo'
      obtain ⟨hc1, -⟩ := partPath_inj hsh7 hlen hp'
      rw [hc' r hr, ← hc1]
  · exact hgc r (mem_mergeNew hr).1

theorem wf_groups {batch : List Review} (hwf : wfBatchB batch = true) :
    ∀ kg ∈ groupReviews batch, (∀ r ∈ kg.2, r.country = kg.1.1) ∧
      ∃ y mo, y < 10000 ∧ mo < 100 ∧ kg.1.2 = ymS y mo := by
  intro kg hkg
  constructor
  · intro r hr
    have hk := (groupReviews_forall kg hkg r hr).2
    rw [← hk]
    rfl
  · obtain ⟨r, hr⟩ : ∃ r, r ∈ kg.2 := by
      rcases hg : kg.2 with _ | ⟨r, l⟩
      · exact absurd hg (group_nonempty kg hkg)
      · exact ⟨r, hg.symm ▸ List.mem_cons_self r _⟩
    obtain ⟨hrb, hkey⟩ := groupReviews_forall kg hkg r hr
    have hwr : wfRecB r = true := by
      rw [wfBatchB, List.all_eq_true] at hwf
      exact hwf r hrb
    obtain ⟨t, hdt, hy, hmo⟩ := wfRec_props hwr
    refine ⟨t.y, t.mo, hy, hmo, ?_⟩
    rw [← hkey]
    show (keyOf r).2 = ymS t.y t.mo
    unfold keyOf
    rw [hdt]
    rfl

theorem processGroups_shape_grows (base : String)
    (gs : List ((String × String) × List Review)) (st : Store)
    (hps : PartsShape base st.parts)
    (hg : ∀ kg ∈ gs, (∀ r ∈ kg.2, r.country = kg.1.1) ∧
      ∃ y mo, y < 10000 ∧ mo < 100 ∧ kg.1.2 = ymS y mo) :
    PartsShape base (processGroups base st gs).1.parts ∧
    Grows st.parts (processGroups base st gs).1.parts := by
  induction gs generalizing st with
  | nil => exact ⟨hps, Grows_refl _⟩
  | cons g rest ih =>
    obtain ⟨⟨c, s⟩, grp⟩ := g
    obtain ⟨hgc0, y, mo, hy, hmo, hys0⟩ := hg ((c, s), grp) (List.mem_cons_self _ _)
    have hgc : ∀ r ∈ grp, r.country = c := hgc0
    have hys : s = ymS y mo := hys0
    have hsh7 : s.length = 7 := by
      rw [hys]
      exact ymS_length hy hmo
    rcases hs : pySortRev (mergeDedup ((lookupA st.parts (partPath base c s)).getD []) grp)
      with _ | out
    · simp only [processGroups, hs]
      exact ⟨hps, Grows_refl _⟩
    · simp only [processGroups, hs]
      have hout : out = sortD (mergeDedup ((lookupA st.parts (partPath base c s)).getD []) grp) :=
        pySortRev_some hs
      have hps1 : PartsShape base
          (updA st.parts (partPath base c s) (out.map serialize)) := by
        intro p doc hmem
        rcases mem_updA hmem with hmem | hmem
        · exact hps p doc hmem
        · injection hmem with hp hdoc
          refine ⟨c, y, mo, hy, hmo, by rw [hp, hys], ?_⟩
          intro r hr
          rw [hdoc] at hr
          obtain ⟨r0, hr0, hr0e⟩ := List.mem_map.mp hr
          rw [← hr0e, serialize_country]
          exact merged_countries hps hgc hsh7 (mem_sortD.mp (hout ▸ hr0))
      have hgrows1 : Grows st.parts
          (updA st.parts (partPath base c s) (out.map serialize)) := by
        intro p doc hl
        by_cases hp : p = partPath base c s
        · subst hp
          refine ⟨out.map serialize, lookupA_updA_self _ _ _, ?_⟩
          intro r hr
          have hrm : r ∈ mergeDedup ((lookupA st.parts (partPath base c s)).getD []) grp := by
            unfold mergeDedup
            apply List.mem_append_left
            rw [hl]
            exact hr
          have hro : r ∈ out := hout.symm ▸ mem_sortD.mpr hrm
          exact ⟨serialize r, List.mem_map_of_mem _ hro, effVersion_serialize r,
            serialize_country r⟩
        · refine ⟨doc, ?_, fun r hr => ⟨r, hr, rfl, rfl⟩⟩
          rw [lookupA_updA_ne _ _ _ _ hp]
          exact hl
      obtain ⟨ihs, ihg⟩ := ih
        { parts := updA st.parts (partPath base c s) (out.map serialize), index := st.index }
        hps1 (fun kg hkg => hg kg (List.mem_cons_of_mem _ hkg))
      exact ⟨ihs, Grows_trans hgrows1 ihg⟩

theorem SInv_step (base : String) (st : Store) (batch : List Review) (now : String)
    (hwf : wfBatchB batch = true) (hinv : SInv base st) :
    SInv base (save_reviewsRun st batch base now).1 := by
  obtain ⟨hshape, hgrows⟩ := processGroups_shape_grows base (groupReviews batch) st
    hinv.parts_shape (wf_groups hwf)
  have hidx := processGroups_index base st (groupReviews batch)
  unfold save_reviewsRun
  rcases hp : processGroups base st (groupReviews batch) with ⟨st2, infos, ok⟩
  rw [hp] at hshape hgrows hidx
  rcases ok with _ | _
  · refine ⟨hshape, ?_⟩
    intro v c ym ht
    rw [hidx] at ht
    obtain ⟨hsh, doc, hdoc, r, hr, hre, hrc⟩ := hinv.sound v c ym ht
    obtain ⟨doc', hdoc', hm⟩ := hgrows _ _ hdoc
    obtain ⟨r', hr', he', hc'⟩ := hm r hr
    exact ⟨hsh, doc', hdoc', r', hr', he'.trans hre, hc'.trans hrc⟩
  · obtain ⟨-, hrel⟩ := processGroups_ok base (groupReviews batch) st st2 infos
      (groupReviews_keys_nodup batch) (wf_group_shapes hwf) hp
    refine ⟨hshape, ?_⟩
    intro v c ym ht
    have ht2 : hasTriple (updIdx infos (indexD st2).versions) v c ym = true := ht
    rcases hasTriple_updIdx_cases ht2 with hold | ⟨i, hi, hvf, hceq, hymeq⟩
    · have hidx2 : st2.index = st.index := hidx
      have htold : hasTripleI st.index v c ym = true := by
        rw [indexD, hidx2] at hold
        rcases hix : st.index with _ | idx
        · rw [hix] at hold
          simp only [Option.getD_none] at hold
          simp [hasTriple, lookupA] at hold
        · rw [hix] at hold
          simp only [Option.getD_some] at hold
          exact hold
      obtain ⟨hsh, doc, hdoc, r, hr, hre, hrc⟩ := hinv.sound v c ym htold
      obtain ⟨doc', hdoc', hm⟩ := hgrows _ _ hdoc
      obtain ⟨r', hr', he', hc'⟩ := hm r hr
      exact ⟨hsh, doc', hdoc', r', hr', he'.trans hre, hc'.trans hrc⟩
    · subst hceq
      subst hymeq
      obtain ⟨kg, hkg, hR1, hR2, hR3, hR4, hR5⟩ := forall₂_exists_of_mem_right hrel i hi
      obtain ⟨hgc, y, mo, hy, hmo, hys⟩ := wf_groups hwf kg hkg
      have hsh7 : (kg.1.2 : String).length = 7 := by
        rw [hys]
        exact ymS_length hy hmo
      obtain ⟨r0, hr0, hr0v⟩ := mem_versionsInFile.mp hvf
      have hr0m : r0 ∈ mergeDedup ((lookupA st.parts i.path).getD []) kg.2 :=
        mem_sortD.mp (pySortRev_some hR4 ▸ hr0)
      have hr0c : r0.country = i.country := by
        rw [hR2]
        refine merged_countries hinv.parts_shape hgc hsh7 ?_
        rw [show partPath base kg.1.1 kg.1.2 = i.path from hR1.symm]
        exact hr0m
      refine ⟨⟨y, mo, hy, hmo, by rw [hR3, hys]⟩, i.reviews.map serialize, ?_, ?_⟩
      · show lookupA st2.parts (partPath base i.country i.ym) = some (i.reviews.map serialize)
        rw [show partPath base i.country i.ym = i.path by rw [hR1, hR2, hR3]]
        exact hR5
      · exact ⟨serialize r0, List.mem_map_of_mem _ hr0, by
          rw [effVersion_serialize, hr0v], by rw [serialize_country, hr0c]⟩

theorem Reach_SInv {base : String} {st : Store} (h : Reach base st) : SInv base st := by
  induction h with
  | empty =>
    constructor
    · intro p doc hmem
      simp [emptyStore] at hmem
    · intro v c ym ht
      simp [emptyStore, hasTripleI] at ht
  | step st batch now hr hwf ih => exact SInv_step base st batch now hwf ih

/-- Claim C4.  In every store state reachable from an empty store by runs of
this system, each `(version, country, ym)` triple in the index is backed by
at least one record in partition `(country, ym)` whose effective version and
country match. -/
theorem C4_index_soundness (base : String) (st : Store) (h : Reach base st)
    (v c ym : String) (ht : hasTripleI st.index v c ym = true) :
    ∃ doc, lookupA st.parts (partPath base c ym) = some doc ∧
      ∃ r, r ∈ doc ∧ effVersion r = v ∧ r.country = c :=
  ((Reach_SInv h).sound v c ym ht).2

/-- Witness for C4 at a concrete reachable state. -/
theorem C4_index_soundness_w :
    let r1 : Review := ⟨"ios", "a", "u", .dt ⟨2024, 5, 1, 0, 0, 0, 0⟩, 5, "", "",
      some "1.0", "jp"⟩
    hasTripleI ((save_reviewsRun emptyStore [r1] "reviews" "t1").1).index
        "1.0" "jp" "2024/05" = true ∧
    ∃ doc, lookupA ((save_reviewsRun emptyStore [r1] "reviews" "t1").1).parts
        (partPath "reviews" "jp" "2024/05") = some doc ∧
      ∃ r, r ∈ doc ∧ effVersion r = "1.0" ∧ r.country = "jp" := by
  intro r1
  exact ⟨by decide, C4_index_soundness "reviews" _
    (Reach.step emptyStore [r1] "t1" Reach.empty (by decide)) "1.0" "jp" "2024/05"
    (by decide)⟩

/-! Idempotence of re-ingestion (claim C1). -/

theorem lookupA_append_none {α : Type} {m1 : List (String × α)} (m2 : List (String × α))
    {k : String} (h : lookupA m1 k = none) : lookupA (m1 ++ m2) k = lookupA m2 k := by
  induction m1 with
  | nil => rfl
  | cons kv m ih =>
    obtain ⟨k', v'⟩ := kv
    rw [lookupA] at h
    by_cases hk : k' = k
    · rw [if_pos hk] at h
      exact absurd h (by simp)
    · rw [if_neg hk] at h
      rw [List.cons_append, lookupA, if_neg hk]
      exact ih h

theorem lookupA_append_some {α : Type} {m1 : List (String × α)} (m2 : List (String × α))
    {k : String} {v : α} (h : lookupA m1 k = some v) : lookupA (m1 ++ m2) k = some v := by
  induction m1 with
  | nil => simp [lookupA] at h
  | cons kv m ih =>
    obtain ⟨k', v'⟩ := kv
    rw [lookupA] at h
    by_cases hk : k' = k
    · rw [if_pos hk] at h
      rw [List.cons_append, lookupA, if_pos hk]
      exact h
    · rw [if_neg hk] at h
      rw [List.cons_append, lookupA, if_neg hk]
      exact ih h

theorem mergeNew_nil_of_seen {seen : List String} {new : List Review}
    (h : ∀ r ∈ new, r.id ∈ seen) : mergeNew seen new = [] := by
  induction new with
  | nil => rfl
  | cons x xs ih =>
    rw [mergeNew, if_pos (h x (List.mem_cons_self _ _))]
    exact ih fun r hr => h r (List.mem_cons_of_mem _ hr)

theorem sortD_of_sorted {l : List Review}
    (h : l.Pairwise fun a b => b.date.key ≤ a.date.key) : sortD l = l := by
  induction l with
  | nil => rfl
  | cons a as ih =>
    obtain ⟨ha, htail⟩ := List.pairwise_cons.mp h
    rw [sortD, ih htail]
    cases as with
    | nil => rfl
    | cons b bs => rw [insD, if_pos (ha b (List.mem_cons_self _ _))]

theorem serialize_datekey (r : Review) : (serialize r).date.key = r.date.key := by
  rcases r with ⟨_, _, _, d, _, _, _, _, _⟩
  cases d <;> rfl

theorem serialize_isObj (r : Review) : (serialize r).date.isObj = false := by
  rcases r with ⟨_, _, _, d, _, _, _, _, _⟩
  cases d <;> rfl

theorem serialize_fix_of_str {r : Review} (h : r.date.isObj = false) : serialize r = r := by
  rcases r with ⟨a, b, c, d, e, f, g, h8, i⟩
  cases d
  · simp [DateVal.isObj] at h
  · rfl

theorem pairwise_map_serialize {out : List Review}
    (h : out.Pairwise fun a b => b.date.key ≤ a.date.key) :
    (out.map serialize).Pairwise fun a b => b.date.key ≤ a.date.key := by
  rw [List.pairwise_map]
  refine h.imp ?_
  intro a b hab
  rw [serialize_datekey, serialize_datekey]
  exact hab

theorem ids_map_serialize (l : List Review) : ids (l.map serialize) = ids l := by
  simp only [ids, List.map_map]
  rfl

theorem mem_ids_sortD {l : List Review} {x : String} : x ∈ ids (sortD l) ↔ x ∈ ids l := by
  simp only [ids, List.mem_map]
  constructor
  · rintro ⟨r, hr, rfl⟩
    exact ⟨r, mem_sortD.mp hr, rfl⟩
  · rintro ⟨r, hr, rfl⟩
    exact ⟨r, mem_sortD.mpr hr, rfl⟩

theorem pySortRev_all_obj {l : List Review} (h : ∀ r ∈ l, r.date.isObj = true) :
    pySortRev l = some (sortD l) := by
  unfold pySortRev
  rw [if_neg]
  intro hc
  obtain ⟨-, h2⟩ := Bool.and_eq_true _ _ ▸ hc
  obtain ⟨r, hr, hro⟩ := List.any_eq_true.mp h2
  rw [h r hr] at hro
  simp at hro

theorem pySortRev_all_str {l : List Review} (h : ∀ r ∈ l, r.date.isObj = false) :
    pySortRev l = some (sortD l) := by
  unfold pySortRev
  rw [if_neg]
  intro hc
  obtain ⟨h1, -⟩ := Bool.and_eq_true _ _ ▸ hc
  obtain ⟨r, hr, hro⟩ := List.any_eq_true.mp h1
  rw [h r hr] at hro
  simp at hro

/-- A run over groups whose partitions do not exist yet: every group is
written as the sorted dedup of itself, appended to the store in group order. -/
theorem processGroups_fresh (base : String) (gs : List ((String × String) × List Review))
    (st : Store)
    (hfresh : ∀ k ∈ gs.map Prod.fst, lookupA st.parts (partPath base k.1 k.2) = none)
    (hnd : (gs.map Prod.fst).Nodup)
    (hsh : ∀ k ∈ gs.map Prod.fst, (k.2 : String).length = 7)
    (hdt : ∀ kg ∈ gs, ∀ r ∈ kg.2, r.date.isObj = true) :
    processGroups base st gs =
      (Store.mk (st.parts ++ gs.map (fun kg =>
          (partPath base kg.1.1 kg.1.2, (sortD (mergeNew [] kg.2)).map serialize)))
        st.index,
       gs.map (fun kg => AffInfo.mk (partPath base kg.1.1 kg.1.2) kg.1.1 kg.1.2
         (sortD (mergeNew [] kg.2))),
       true) := by
  induction gs generalizing st with
  | nil => simp [processGroups]
  | cons g rest ih =>
    obtain ⟨⟨c, s⟩, grp⟩ := g
    have hex : lookupA st.parts (partPath base c s) = none :=
      hfresh (c, s) (List.mem_cons_self _ _)
    have hscrut : pySortRev (mergeDedup ((lookupA st.parts (partPath base c s)).getD []) grp) =
        some (sortD (mergeNew [] grp)) := by
      rw [hex]
      show pySortRev (mergeDedup [] grp) = some (sortD (mergeNew [] grp))
      have hmm : mergeDedup [] grp = mergeNew [] grp := rfl
      rw [hmm]
      refine pySortRev_all_obj ?_
      intro r hr
      exact hdt ((c, s), grp) (List.mem_cons_self _ _) r (mem_mergeNew hr).1
    simp only [processGroups, hscrut]
    rw [updA_notfound _ _ _ hex]
    have hnd' : ((c, s) :: rest.map Prod.fst).Nodup := by
      simpa only [List.map_cons] using hnd
    obtain ⟨hnd1, hnd2⟩ := List.nodup_cons.mp hnd'
    have hshh : s.length = 7 := hsh (c, s) (by simp)
    have hshr : ∀ k ∈ rest.map Prod.fst, (k.2 : String).length = 7 :=
      fun k hk => hsh k (by simp [hk])
    have hfresh2 : ∀ k ∈ rest.map Prod.fst,
        lookupA (st.parts ++ [(partPath base c s, (sortD (mergeNew [] grp)).map serialize)])
          (partPath base k.1 k.2) = none := by
      intro k hk
      rw [lookupA_append_none _ (hfresh k (List.mem_cons_of_mem _ hk))]
      rw [lookupA, if_neg]
      · rfl
      · intro hc
        obtain ⟨h1, h2⟩ := partPath_inj hshh (hshr k hk) hc
        apply hnd1
        have : k = (c, s) := by
          obtain ⟨ka, kb⟩ := k
          simp only [Prod.mk.injEq]
          exact ⟨h1.symm, h2.symm⟩
        rw [← this]
        exact hk
    have := ih { parts := st.parts ++
        [(partPath base c s, (sortD (mergeNew [] grp)).map serialize)], index := st.index }
      hfresh2 (by simpa only [List.map_cons] using hnd2)
      hshr (fun kg hkg => hdt kg (List.mem_cons_of_mem _ hkg))
    rw [this]
    simp [List.append_assoc]

/-- A run over groups whose partitions already hold exactly their content
(string dates, sorted, ids covering the group) rewrites every partition
unchanged: the store is untouched. -/
theorem processGroups_rerun (base : String) (gs : List ((String × String) × List Review))
    (st : Store) :
    (∀ kg ∈ gs, ∃ edoc,
      lookupA st.parts (partPath base kg.1.1 kg.1.2) = some edoc ∧
      (∀ r ∈ edoc, r.date.isObj = false) ∧
      edoc.Pairwise (fun a b => b.date.key ≤ a.date.key) ∧
      (∀ r ∈ kg.2, r.id ∈ ids edoc)) →
    processGroups base st gs =
      (st, gs.map (fun kg => AffInfo.mk (partPath base kg.1.1 kg.1.2) kg.1.1 kg.1.2
        ((lookupA st.parts (partPath base kg.1.1 kg.1.2)).getD [])), true) := by
  induction gs with
  | nil =>
    intro _
    simp [processGroups]
  | cons g rest ih =>
    intro hstored
    obtain ⟨⟨c, s⟩, grp⟩ := g
    obtain ⟨edoc, hed0, hstr0, hsorted, hids0⟩ := hstored ((c, s), grp) (List.mem_cons_self _ _)
    have hed : lookupA st.parts (partPath base c s) = some edoc := hed0
    have hids : ∀ r ∈ grp, r.id ∈ ids edoc := hids0
    have hmerged : mergeDedup ((lookupA st.parts (partPath base c s)).getD []) grp = edoc := by
      rw [hed]
      show mergeDedup edoc grp = edoc
      unfold mergeDedup
      rw [mergeNew_nil_of_seen hids, List.append_nil]
    have hscrut : pySortRev (mergeDedup ((lookupA st.parts (partPath base c s)).getD []) grp) =
        some edoc := by
      rw [hmerged, pySortRev_all_str hstr0, sortD_of_sorted hsorted]
    simp only [processGroups, hscrut]
    have hser : edoc.map serialize = edoc := by
      calc edoc.map serialize = edoc.map id :=
            List.map_congr_left (fun r hr => serialize_fix_of_str (hstr0 r hr))
        _ = edoc := List.map_id _
    rw [hser, updA_self_id st.parts (partPath base c s) edoc hed]
    rw [show (Store.mk st.parts st.index) = st from rfl]
    rw [ih (fun kg hkg => hstored kg (List.mem_cons_of_mem _ hkg))]
    rw [List.map_cons, hed]
    rfl

theorem addVer_noop {vm : VMap} {v c ym : String} (h : hasTriple vm v c ym = true) :
    addVer vm v c ym = vm := by
  rw [hasTriple_iff] at h
  unfold addVer
  rcases h1 : lookupA vm v with _ | cm
  · rw [h1] at h
    simp [lookupA] at h
  · rw [h1] at h
    simp only [Option.getD_some] at h
    rcases h2 : lookupA cm c with _ | l
    · rw [h2] at h
      simp at h
    · rw [h2] at h
      simp only [Option.getD_some] at h
      dsimp only
      simp only [Option.getD_some]
      rw [h2]
      simp only [Option.getD_some]
      have hy : addYmTo l ym = l := by
        unfold addYmTo
        rw [if_pos h]
      rw [hy, updA_self_id cm c l h2, updA_self_id vm v cm h1]

theorem foldl_addVer_noop {c ym : String} {vs : List String} :
    ∀ {vm : VMap}, (∀ v ∈ vs, hasTriple vm v c ym = true) →
      vs.foldl (fun m x => addVer m x c ym) vm = vm := by
  induction vs with
  | nil => exact fun _ => rfl
  | cons x vs ih =>
    intro vm h
    rw [List.foldl_cons, addVer_noop (h x (List.mem_cons_self _ _))]
    exact ih (fun v hv => h v (List.mem_cons_of_mem _ hv))

theorem updIdx_noop {infos : List AffInfo} :
    ∀ {vm : VMap}, (∀ i ∈ infos, ∀ v ∈ versionsInFile i.reviews,
        hasTriple vm v i.country i.ym = true) →
      updIdx infos vm = vm := by
  induction infos with
  | nil => exact fun _ => rfl
  | cons i infos ih =>
    intro vm h
    rw [updIdx, List.foldl_cons]
    have h1 : applyInfo vm i = vm := foldl_addVer_noop (h i (List.mem_cons_self _ _))
    rw [h1]
    exact ih (fun j hj v hv => h j (List.mem_cons_of_mem _ hj) v hv)

theorem lookupA_map_paths (base : String)
    (F : ((String × String) × List Review) → List Review) :
    ∀ (gs : List ((String × String) × List Review)),
      (gs.map Prod.fst).Nodup →
      (∀ k ∈ gs.map Prod.fst, (k.2 : String).length = 7) →
      ∀ kg ∈ gs,
        lookupA (gs.map (fun kg' => (partPath base kg'.1.1 kg'.1.2, F kg')))
          (partPath base kg.1.1 kg.1.2) = some (F kg) := by
  intro gs
  induction gs with
  | nil => intro _ _ kg hkg; simp at hkg
  | cons g rest ih =>
    intro hnd hsh kg hkg
    have hnd' : (g.1 :: rest.map Prod.fst).Nodup := by
      simpa only [List.map_cons] using hnd
    obtain ⟨hnd1, hnd2⟩ := List.nodup_cons.mp hnd'
    rcases List.mem_cons.mp hkg with hkg | hkg
    · subst hkg
      simp [List.map_cons, lookupA]
    · have hkey : kg.1 ∈ rest.map Prod.fst := List.mem_map_of_mem _ hkg
      have hne : partPath base g.1.1 g.1.2 ≠ partPath base kg.1.1 kg.1.2 := by
        intro hc
        obtain ⟨h1, h2⟩ := partPath_inj (hsh g.1 (by simp)) (hsh kg.1 (by simp [hkey])) hc
        apply hnd1
        have heq : kg.1 = g.1 := Prod.ext h1.symm h2.symm
        rw [← heq]
        exact hkey
      simp only [List.map_cons, lookupA, if_neg hne]
      exact ih hnd2 (fun k hk => hsh k (by simp [hk])) kg hkg

/-- Ingesting a well-formed batch into the empty store: the resulting state in
closed form (each group sorted-deduped and serialized at its path; the index
built from scratch and stamped with the run's timestamp). -/
theorem save_reviewsRun_from_empty (batch : List Review) (base t : String)
    (hwf : wfBatchB batch = true) :
    save_reviewsRun emptyStore batch base t =
      (Store.mk
        (List.map (fun kg => (partPath base kg.1.1 kg.1.2,
          (sortD (mergeNew [] kg.2)).map serialize)) (groupReviews batch))
        (some (IndexDoc.mk t (updIdx (List.map (fun kg =>
          AffInfo.mk (partPath base kg.1.1 kg.1.2) kg.1.1 kg.1.2 (sortD (mergeNew [] kg.2)))
          (groupReviews batch)) []))),
       true) := by
  have hdt : ∀ kg ∈ groupReviews batch, ∀ r ∈ kg.2, r.date.isObj = true := by
    intro kg hkg r hr
    obtain ⟨hrb, -⟩ := groupReviews_forall kg hkg r hr
    have hwr : wfRecB r = true := by
      rw [wfBatchB, List.all_eq_true] at hwf
      exact hwf r hrb
    obtain ⟨t2, hdt2, -, -⟩ := wfRec_props hwr
    rw [hdt2]
    rfl
  have hA := processGroups_fresh base (groupReviews batch) emptyStore
    (fun k _ => rfl) (groupReviews_keys_nodup batch) (wf_group_shapes hwf) hdt
  unfold save_reviewsRun
  rw [hA]
  rfl

/-- Re-ingesting the same well-formed batch right after ingesting it into an
empty store gives exactly the state of one single run (performed at the
second run's timestamp): the second pass appends nothing, rewrites every
partition unchanged, adds nothing to the index, and restamps `updated_at`. -/
theorem save_reviewsRun_reingest (batch : List Review) (base t1 t2 : String)
    (hwf : wfBatchB batch = true) :
    save_reviewsRun (save_reviewsRun emptyStore batch base t1).1 batch base t2 =
      save_reviewsRun emptyStore batch base t2 := by
  have hnd := groupReviews_keys_nodup batch
  have hsh := wf_group_shapes hwf
  rw [save_reviewsRun_from_empty batch base t1 hwf,
    save_reviewsRun_from_empty batch base t2 hwf]
  set gs := groupReviews batch with hgs
  set W := List.map (fun kg => (partPath base kg.1.1 kg.1.2,
    (sortD (mergeNew [] kg.2)).map serialize)) gs with hW
  set infosA := List.map (fun kg => AffInfo.mk (partPath base kg.1.1 kg.1.2) kg.1.1 kg.1.2
    (sortD (mergeNew [] kg.2))) gs with hiA
  set V := updIdx infosA [] with hV
  dsimp only
  have hstored : ∀ kg ∈ gs, ∃ edoc,
      lookupA W (partPath base kg.1.1 kg.1.2) = some edoc ∧
      (∀ r ∈ edoc, r.date.isObj = false) ∧
      edoc.Pairwise (fun a b => b.date.key ≤ a.date.key) ∧
      (∀ r ∈ kg.2, r.id ∈ ids edoc) := by
    intro kg hkg
    refine ⟨(sortD (mergeNew [] kg.2)).map serialize, ?_, ?_, ?_, ?_⟩
    · rw [hW]
      exact lookupA_map_paths base (fun kg => (sortD (mergeNew [] kg.2)).map serialize)
        gs hnd hsh kg hkg
    · intro r hr
      obtain ⟨r0, -, rfl⟩ := List.mem_map.mp hr
      exact serialize_isObj r0
    · exact pairwise_map_serialize (pairwise_sortD _)
    · intro r hr
      rw [ids_map_serialize, mem_ids_sortD]
      rcases mergeNew_ids hr [] with hh | hh
      · simp at hh
      · exact hh
  have hB := processGroups_rerun base gs (Store.mk W (some (IndexDoc.mk t1 V))) hstored
  have hnoop : updIdx (List.map (fun kg => AffInfo.mk (partPath base kg.1.1 kg.1.2) kg.1.1
      kg.1.2 ((lookupA W (partPath base kg.1.1 kg.1.2)).getD [])) gs) V = V := by
    apply updIdx_noop
    intro i hi v hv
    obtain ⟨kg, hkg, rfl⟩ := List.mem_map.mp hi
    dsimp only at hv ⊢
    rw [hW] at hv
    rw [lookupA_map_paths base (fun kg => (sortD (mergeNew [] kg.2)).map serialize)
      gs hnd hsh kg hkg] at hv
    simp only [Option.getD_some] at hv
    have hv2 : v ∈ versionsInFile (sortD (mergeNew [] kg.2)) := by
      rw [mem_versionsInFile] at hv ⊢
      obtain ⟨r, hr, hre⟩ := hv
      obtain ⟨r0, hr0, rfl⟩ := List.mem_map.mp hr
      refine ⟨r0, hr0, ?_⟩
      rw [← hre]
      exact (effVersion_serialize r0).symm
    rw [hV]
    exact hasTriple_updIdx_self (List.mem_map_of_mem _ hkg) hv2
  unfold save_reviewsRun
  rw [hB]
  show (Store.mk W (some (IndexDoc.mk t2 (updIdx (List.map (fun kg =>
      AffInfo.mk (partPath base kg.1.1 kg.1.2) kg.1.1 kg.1.2
      ((lookupA W (partPath base kg.1.1 kg.1.2)).getD [])) gs) V))), true) =
    (Store.mk W (some (IndexDoc.mk t2 V)), true)
  rw [hnoop]

/-- Claim C1.  Ingesting the same well-formed batch twice in succession
against an initially empty store yields exactly the store state of ingesting
it once — the single run taken at the second run's timestamp, since
`updated_at` always records the time of the latest run (see C10); all
partition documents and the index's `versions` mapping are identical. -/
theorem C1_reingest_idempotent (batch : List Review) (base t1 t2 : String)
    (hwf : wfBatchB batch = true) :
    save_reviewsRun (save_reviewsRun emptyStore batch base t1).1 batch base t2 =
      save_reviewsRun emptyStore batch base t2 ∧
    (save_reviewsRun emptyStore batch base t1).2 = true := by
  refine ⟨save_reviewsRun_reingest batch base t1 t2 hwf, ?_⟩
  rw [save_reviewsRun_from_empty batch base t1 hwf]

/-- Witness for C1 at a concrete batch. -/
theorem C1_reingest_idempotent_w :
    let r1 : Review := ⟨"ios", "a", "u", .dt ⟨2024, 5, 1, 0, 0, 0, 0⟩, 5, "", "",
      some "1.0", "jp"⟩
    save_reviewsRun (save_reviewsRun emptyStore [r1] "reviews" "t1").1 [r1] "reviews" "t2" =
      save_reviewsRun emptyStore [r1] "reviews" "t2" ∧
    (save_reviewsRun emptyStore [r1] "reviews" "t1").2 = true := by
  intro r1
  exact C1_reingest_idempotent [r1] "reviews" "t1" "t2" (by decide)

/-! The fetcher's date handling (claim C7). -/

theorem fetchGo_eq (c : String) (now : DT) (cnt : Nat) :
    ∀ (es : List XmlEntry) (acc : List Review), acc.length < cnt →
      (∀ e ∈ es, e.hasRating = true → e.updated.isSome = true) →
      fetchGo c now cnt es acc =
        some (acc ++ ((es.filter (fun e => e.hasRating)).take (cnt - acc.length)).map
          (entryToReview c now)) := by
  intro es
  induction es with
  | nil =>
    intro acc _ _
    simp [fetchGo]
  | cons e es ih =>
    intro acc hlen hupd
    rcases hrb : e.hasRating with _ | _
    · simp only [fetchGo, hrb]
      rw [ih acc hlen (fun x hx => hupd x (List.mem_cons_of_mem _ hx))]
      simp [List.filter_cons, hrb]
    · simp only [fetchGo, hrb]
      rcases hu : e.updated with _ | s
      · have := hupd e (List.mem_cons_self _ _) hrb
        rw [hu] at this
        simp at this
      · simp only
        by_cases hstop : cnt ≤ (acc ++ [entryToReview c now e]).length
        · rw [if_pos hstop]
          have hal : (acc ++ [entryToReview c now e]).length = acc.length + 1 := by
            simp
          have h1 : cnt - acc.length = 1 := by
            rw [hal] at hstop
            omega
          simp [List.filter_cons, hrb, h1]
        · rw [if_neg hstop]
          have hal : (acc ++ [entryToReview c now e]).length = acc.length + 1 := by
            simp
          rw [ih (acc ++ [entryToReview c now e]) (by rw [hal]; omega)
            (fun x hx => hupd x (List.mem_cons_of_mem _ hx))]
          have h2 : cnt - acc.length = (cnt - (acc ++ [entryToReview c now e]).length) + 1 := by
            rw [hal]
            omega
          rw [List.filter_cons]
          simp only [hrb, if_pos]
          rw [h2, List.take_succ_cons, List.map_cons]
          simp [List.append_assoc]

theorem fetchGo_abort (c : String) (now : DT) (cnt : Nat) :
    ∀ (l1 : List XmlEntry) (e : XmlEntry) (l2 : List XmlEntry) (acc : List Review),
      e.hasRating = true → e.updated = none →
      acc.length + (l1.filter (fun x => x.hasRating)).length < cnt →
      fetchGo c now cnt (l1 ++ e :: l2) acc = none := by
  intro l1
  induction l1 with
  | nil =>
    intro e l2 acc hr hu _
    rw [List.nil_append]
    simp only [fetchGo, hr, hu]
    rfl
  | cons x l1 ih =>
    intro e l2 acc hr hu hlen
    rcases hxr : x.hasRating with _ | _
    · simp only [List.cons_append, fetchGo, hxr]
      refine ih e l2 acc hr hu ?_
      simp only [List.filter_cons, hxr] at hlen
      simpa using hlen
    · simp only [List.cons_append, fetchGo, hxr]
      rcases hxu : x.updated with _ | s
      · rfl
      · simp only
        have hlen2 : acc.length + 1 + (l1.filter (fun x => x.hasRating)).length < cnt := by
          simp only [List.filter_cons, hxr] at hlen
          simp only [if_pos, List.length_cons] at hlen
          omega
        have hstop : ¬ (cnt ≤ (acc ++ [entryToReview c now x]).length) := by
          simp only [List.length_append, List.length_cons, List.length_nil]
          omega
        rw [if_neg hstop]
        refine ih e l2 (acc ++ [entryToReview c now x]) hr hu ?_
        simp only [List.length_append, List.length_cons, List.length_nil]
        omega

/-- Claim C7 is false on the code; this is the amended statement.  A record
whose date string fails to parse is not rejected: the fetcher keeps it,
substituting the current UTC time for its date (fetcher.py line 121,
`# Fallback`), so it flows into the partition of the current month.  Only a
missing `<updated>` element raises, and then the exception handler drops the
whole fetch (it returns `[]`), not just the offending record. -/
theorem C7_unparsable_date_fallback (cnt : Nat) :
    (∀ (entries : List XmlEntry) (c : String) (now : DT), 0 < cnt →
      (∀ e ∈ entries, e.hasRating = true → e.updated.isSome = true) →
      fetchIosXml entries c cnt now =
        ((entries.filter (fun e => e.hasRating)).take cnt).map (entryToReview c now)) ∧
    (∀ (e : XmlEntry) (c : String) (now : DT) (s : String),
      e.updated = some s → parseIsoUTC s = none →
      (entryToReview c now e).date = DateVal.dt now) ∧
    (∀ (l1 : List XmlEntry) (e : XmlEntry) (l2 : List XmlEntry) (c : String) (now : DT),
      e.hasRating = true → e.updated = none →
      (l1.filter (fun x => x.hasRating)).length < cnt →
      fetchIosXml (l1 ++ e :: l2) c cnt now = []) := by
  refine ⟨?_, ?_, ?_⟩
  · intro entries c now hcnt hupd
    unfold fetchIosXml
    rw [fetchGo_eq c now cnt entries [] (by simpa using hcnt) hupd]
    simp
  · intro e c now s hu hp
    unfold entryToReview
    rw [hu]
    simp [hp]
  · intro l1 e l2 c now hr hu hlen
    unfold fetchIosXml
    rw [fetchGo_abort c now cnt l1 e l2 [] hr hu (by simpa using hlen)]
    rfl

/-- Counterexample for C7 as stated: in a feed with one parsable and one
unparsable date, the unparsable record is not dropped — it comes out with
its date replaced by `now`, and after ingestion it sits in the partition of
the current month. -/
theorem C7_unparsable_date_in_partition_cx :
    let eGood : XmlEntry := ⟨true, "g1", some "2024-05-21T07:00:00-07:00", "alice", "t", "c",
      5, some "1.0"⟩
    let eBad : XmlEntry := ⟨true, "b1", some "not-a-date", "bob", "t", "c", 1, some "1.0"⟩
    let now0 : DT := ⟨2025, 1, 2, 3, 4, 5, 6⟩
    (List.map (fun r => (r.id, r.date)) (fetchIosXml [eGood, eBad] "jp" 200 now0)) =
      [("g1", DateVal.dt ⟨2024, 5, 21, 14, 0, 0, 0⟩), ("b1", DateVal.dt now0)] ∧
    (Option.map (List.map Review.id)
      (lookupA ((save_reviewsRun emptyStore (fetchIosXml [eGood, eBad] "jp" 200 now0)
        "reviews" "t1").1).parts "reviews/jp/2025/01.json")) = some ["b1"] := by
  decide

/-- Witness for the amended C7 theorem at concrete inputs. -/
theorem C7_unparsable_date_fallback_w :
    let e1 : XmlEntry := ⟨true, "g1", some "2024-05-21T07:00:00-07:00", "a", "t", "c",
      5, some "1.0"⟩
    let eB : XmlEntry := ⟨true, "b1", some "not-a-date", "b", "t", "c", 1, some "1.0"⟩
    let eM : XmlEntry := ⟨true, "m1", none, "m", "t", "c", 2, some "1.0"⟩
    let now0 : DT := ⟨2025, 1, 2, 3, 4, 5, 6⟩
    fetchIosXml [e1, eB] "jp" 200 now0 =
      (([e1, eB].filter (fun e => e.hasRating)).take 200).map (entryToReview "jp" now0) ∧
    (entryToReview "jp" now0 eB).date = DateVal.dt now0 ∧
    fetchIosXml [e1, eM] "jp" 200 now0 = [] := by
  intro e1 eB eM now0
  obtain ⟨h1, h2, h3⟩ := C7_unparsable_date_fallback 200
  exact ⟨h1 [e1, eB] "jp" now0 (by decide) (by decide),
    h2 eB "jp" now0 "not-a-date" rfl (by decide),
    h3 [e1] eM [] "jp" now0 rfl rfl (by decide)⟩
